import Mathlib

/-!
Verification of the JSON subsystem of the stdt repository: the value model
(src/json/value.rs), the recursive-descent parser (src/json/parser.rs) and
the Display-based serializer (src/json/serializer.rs), shallowly embedded
over lists of Unicode scalar values.

Modelling conventions, stated once:

* Rust String values and string slices are embedded as List Char; a Lean
  Char is a Unicode scalar value, exactly as a Rust char is.

* Rust f64 values are embedded exactly rather than as IEEE bit patterns:
  a finite value is kept as a decimal fraction n / 10^k with an integer
  numerator and a power-of-ten scale, and NaN and the two infinities are
  explicit constructors.  The text-to-float conversion str::parse::<f64>
  rounds a decimal numeral to the nearest double; that rounding is a
  function of the exact decimal value, so two numeric texts denoting equal
  decimal fractions produce equal doubles, and every equality proved here
  between parsed numbers transfers to the Rust code.  Overflow to
  infinity is modelled exactly: a decimal value of magnitude at least
  2^1024 - 2^970 converts to the infinity of its sign (mkF64), below the
  threshold the exact fraction is kept.  The Display formatting of a
  finite double, which in Rust prints the shortest decimal numeral that
  reads back as the same double, is modelled as the exact decimal numeral
  of the stored fraction: both are plain decimal numerals (no exponent)
  accepted by the number grammar and denoting the value being printed,
  which is the property the round-trip theorems rest on.

* char::is_whitespace (the Unicode White_Space property) is embedded with
  its full 25-element code-point table.  char::is_alphabetic is embedded
  as the ASCII letter test: the parser consults it only inside
  parse_literal, whose accumulated runs in every claim below are ASCII.

* HashMap<String, Value> is embedded as an association list with unique
  keys; HashMap::insert (replace the value of an existing key, otherwise
  add the binding) is embedded preserving first-insertion order.  HashMap
  iteration order is unspecified in Rust, so object results are compared
  with the structural equality function below, which treats objects as
  maps, exactly as the derived PartialEq of Value does via HashMap
  equality.

* The recursive-descent parser is embedded as a fuel-indexed recursion so
  that every definition computes by kernel reduction; the entry point
  supplies fuel 3 * length + 4, and the fuel-sufficiency theorems below
  show the result is the same for every fuel at least that large, so no
  fuel exhaustion is reachable from the entry point.
-/

namespace Stdt

/-- Character test used by Parser::consume_whitespace: Rust
char::is_whitespace, the Unicode White_Space property, as its explicit
code-point table. -/
def rustIsWhitespace (c : Char) : Bool :=
  decide ((0x09 ≤ c.toNat ∧ c.toNat ≤ 0x0D) ∨ c.toNat = 0x20 ∨ c.toNat = 0x85 ∨
    c.toNat = 0xA0 ∨ c.toNat = 0x1680 ∨ (0x2000 ≤ c.toNat ∧ c.toNat ≤ 0x200A) ∨
    c.toNat = 0x2028 ∨ c.toNat = 0x2029 ∨ c.toNat = 0x202F ∨ c.toNat = 0x205F ∨
    c.toNat = 0x3000)

/-- Character test used where the parser asks for a decimal digit, Rust
char::is_digit(10): scalar value between those of the zero and nine
characters. -/
def isDigitChar (c : Char) : Bool := decide (48 ≤ c.toNat ∧ c.toNat ≤ 57)

/-- Character class consumed by the loop of Parser::parse_number:
a decimal digit or one of the period, e, E, plus, minus characters. -/
def numChar (c : Char) : Bool :=
  isDigitChar c || c == '.' || c == 'e' || c == 'E' || c == '+' || c == '-'

/-- Model of an f64 value: NaN, the two infinities, or a finite value kept
exactly as the decimal fraction n / 10^k (see the header comment). -/
inductive JNum where
  | nan : JNum
  | inf : JNum
  | neginf : JNum
  | fin : Int → Nat → JNum
  deriving DecidableEq

/-- Exact rational denoted by a finite model number; NaN and the
infinities are sent to 0 (they are never interpreted). -/
def jnumToRat : JNum → ℚ
  | .fin n k => (n : ℚ) / 10 ^ k
  | _ => 0

/-- The Value enum of src/json/value.rs: the six-variant closed union
representing any JSON value. -/
inductive Value where
  | null : Value
  | bool : Bool → Value
  | num : JNum → Value
  | str : List Char → Value
  | arr : List Value → Value
  | obj : List (List Char × Value) → Value

/-- The ParseError enum of src/json/parser.rs. -/
inductive ParseError where
  | UnexpectedEndOfInput : ParseError
  | UnexpectedToken : Char → ParseError
  | UnterminatedString : ParseError
  | InvalidEscapeSequence : Char → ParseError
  | InvalidNumber : ParseError
  | InvalidLiteral : List Char → ParseError
  | TrailingCharacters : ParseError
  deriving DecidableEq

/-- Equality of model numbers as the derived PartialEq of Value compares
f64 payloads: NaN is not equal to anything including itself, the
infinities are equal to themselves, finite values compare as exact
fractions by cross-multiplication. -/
def numEqB : JNum → JNum → Bool
  | .fin n k, .fin m j => n * 10 ^ j == m * 10 ^ k
  | .inf, .inf => true
  | .neginf, .neginf => true
  | _, _ => false

/-- Association-list lookup, the model of HashMap::get. -/
def lookupAssoc (m : List (List Char × Value)) (k : List Char) : Option Value :=
  match m with
  | [] => none
  | (k0, v0) :: rest => if k0 = k then some v0 else lookupAssoc rest k

mutual

/-- Structural equality of Values, the derived PartialEq of Value:
arrays compare pairwise in order, objects compare as maps (equal size and
every binding of the left occurs in the right), numbers compare as f64
values. -/
def structEq : Value → Value → Bool
  | .null, .null => true
  | .bool a, .bool b => a == b
  | .num a, .num b => numEqB a b
  | .str a, .str b => a == b
  | .arr a, .arr b => structEqList a b
  | .obj a, .obj b => a.length == b.length && objSubset a b
  | _, _ => false

/-- Pairwise, order-sensitive structural equality of element lists. -/
def structEqList : List Value → List Value → Bool
  | [], [] => true
  | a :: as0, b :: bs0 => structEq a b && structEqList as0 bs0
  | _, _ => false

/-- Every binding of the first list occurs, up to structural equality of
the values, in the second association list. -/
def objSubset : List (List Char × Value) → List (List Char × Value) → Bool
  | [], _ => true
  | (k, v) :: rest, b =>
    (match lookupAssoc b k with
     | some w => structEq v w
     | none => false) && objSubset rest b

end

/-- Model of HashMap::insert as the object production uses it: replace the
value of an existing key in place, otherwise append the new binding. -/
def insertAssoc (m : List (List Char × Value)) (k : List Char) (v : Value) :
    List (List Char × Value) :=
  match m with
  | [] => [(k, v)]
  | (k0, v0) :: rest => if k0 = k then (k0, v) :: rest else (k0, v0) :: insertAssoc rest k v

/-- Model of Parser::consume_whitespace: drop leading characters for which
char::is_whitespace holds. -/
def skipWs (s : List Char) : List Char :=
  s.dropWhile rustIsWhitespace

/-- Value of one hexadecimal digit, as char::to_digit(16) accepts it:
0-9, a-f, A-F. -/
def hexDigitVal (c : Char) : Option Nat :=
  if '0' ≤ c ∧ c ≤ '9' then some (c.toNat - 48)
  else if 'a' ≤ c ∧ c ≤ 'f' then some (c.toNat - 87)
  else if 'A' ≤ c ∧ c ≤ 'F' then some (c.toNat - 55)
  else none

/-- Horner accumulation of hexadecimal digits; none on the first
non-digit. -/
def hexFold : List Char → Nat → Option Nat
  | [], acc => some acc
  | c :: rest, acc =>
    match hexDigitVal c with
    | none => none
    | some d => hexFold rest (16 * acc + d)

/-- Model of u32::from_str_radix(s, 16): an optional leading plus sign,
then one or more hexadecimal digits, nothing else.  The escape production
only passes four characters, so u32 overflow is unreachable and not
modelled. -/
def fromStrRadix16 : List Char → Option Nat
  | [] => none
  | c :: rest =>
    if c = '+' then
      match rest with
      | [] => none
      | _ => hexFold rest 0
    else hexFold (c :: rest) 0

/-- Model of std::char::from_u32: some scalar value for every code below
the surrogate range or between it and 0x110000, none otherwise. -/
def charFromU32 (n : Nat) : Option Char :=
  if n.isValidChar then some (Char.ofNat n) else none

/-- Decoded character of a two-character escape whose introducer is one
of the eight named escape characters, none otherwise. -/
def escDecode (e : Char) : Option Char :=
  if e = '"' ∨ e = '\\' ∨ e = '/' then some e
  else if e = 'b' then some '\x08'
  else if e = 'f' then some '\x0C'
  else if e = 'n' then some '\n'
  else if e = 'r' then some '\r'
  else if e = 't' then some '\t'
  else none

/-- Body of Parser::parse_string after the opening quote has been
consumed: accumulate scalar values until an unescaped closing quote,
decoding the escape table of the source; returns the accumulated content
and the input remaining after the closing quote.  The fuel index is an
embedding device only: one unit is consumed per character, so the fuel
supplied at the single call site, length plus one, can never run out. -/
def parseStringF : Nat → List Char → Except ParseError (List Char × List Char)
  | 0, _ => .error .UnterminatedString
  | f + 1, s =>
    match s with
    | [] => .error .UnterminatedString
    | c :: rest =>
      if c = '"' then .ok ([], rest)
      else if c = '\\' then
        match rest with
        | [] => .error .UnterminatedString
        | e :: rest2 =>
          match escDecode e with
          | some d => (parseStringF f rest2).map (fun p => (d :: p.1, p.2))
          | none =>
            if e = 'u' then
              match rest2 with
              | h1 :: h2 :: h3 :: h4 :: rest3 =>
                (match fromStrRadix16 [h1, h2, h3, h4] with
                 | none => .error (.InvalidEscapeSequence 'u')
                 | some code =>
                   match charFromU32 code with
                   | none => .error (.InvalidEscapeSequence 'u')
                   | some ch => (parseStringF f rest3).map (fun p => (ch :: p.1, p.2)))
              | _ => .error .UnterminatedString
            else .error (.InvalidEscapeSequence e)
      else (parseStringF f rest).map (fun p => (c :: p.1, p.2))

/-- Horner accumulation of the value of a run of decimal digit
characters. -/
def digitsToNat (ds : List Char) : Nat :=
  ds.foldl (fun a c => 10 * a + (c.toNat - 48)) 0

/-- Model of str::parse::<f64> on the character run the number production
accumulates, per the documented FromStr grammar for f64: an optional sign,
a mantissa that is digits, digits point digits, or point digits (at least
one digit in total), and an optional exponent marker with an optional sign
and at least one digit; the whole input must be consumed.  The value is
returned as an exact decimal fraction (see the header comment).  The inf,
infinity and nan spellings of that grammar are unreachable here because
the accumulated run contains only digits and the period, e, E, plus and
minus characters. -/
def splitSign (s : List Char) : Bool × List Char :=
  match s with
  | [] => (false, [])
  | c :: r =>
    if c = '-' then (true, r)
    else if c = '+' then (false, r)
    else (false, c :: r)

/-- Overflow threshold of f64 under the default round-to-nearest-even:
an exact value whose magnitude is at least 2^1024 - 2^970 (the midpoint
between the largest finite double and 2^1024, which ties to the even
candidate and overflows) converts to infinity, and any smaller value
converts to a finite double.  Written as a numeral so that concrete
parses evaluate; the theorem ovfThreshold_eq identifies it with
2 ^ 1024 - 2 ^ 970. -/
def ovfThreshold : Nat := 179769313486231580793728971405303415079934132710037826936173778980444968292764750946649017977587207096330286416692887910946555547851940402630657488671505820681908902000708383676273854845817711531764475730270069855571366959622842914819860834936475292719074168444365510704342711559699508093042880177904174497792

/-- Clamping of an exact decimal fraction n / 10^k into the f64 range, as
str::parse::<f64> performs: infinity of the appropriate sign on overflow,
the exact fraction kept otherwise (rounding of in-range values is not
modelled, see the header comment). -/
def mkF64 (n : Int) (k : Nat) : JNum :=
  if ovfThreshold * 10 ^ k ≤ n.natAbs then (if n < 0 then .neginf else .inf)
  else .fin n k

def rustParseF64 (s : List Char) : Option JNum :=
  let signSplit := splitSign s
  let neg := signSplit.1
  let s1 := signSplit.2
  let intDigits := s1.takeWhile isDigitChar
  let s2 := s1.dropWhile isDigitChar
  let fracSplit : List Char × List Char :=
    match s2 with
    | [] => ([], [])
    | c :: r =>
      if c = '.' then (r.takeWhile isDigitChar, r.dropWhile isDigitChar)
      else ([], c :: r)
  let fracDigits := fracSplit.1
  let s3 := fracSplit.2
  if intDigits = [] ∧ (s2 = s3 ∨ fracDigits = []) then none
  else
    let mantissa : Nat := digitsToNat intDigits * 10 ^ fracDigits.length + digitsToNat fracDigits
    let base : Int := if neg then -(mantissa : Int) else (mantissa : Int)
    match s3 with
    | [] => some (mkF64 base fracDigits.length)
    | m :: s4 =>
      if m = 'e' ∨ m = 'E' then
        let expSplit := splitSign s4
        let eDigits := expSplit.2.takeWhile isDigitChar
        let s5 := expSplit.2.dropWhile isDigitChar
        if eDigits = [] ∨ s5 ≠ [] then none
        else if expSplit.1 then some (mkF64 base (fracDigits.length + digitsToNat eDigits))
        else some (mkF64 (base * 10 ^ digitsToNat eDigits) fracDigits.length)
      else none

/-- Model of Parser::parse_number: push an optional leading minus, then
greedily every character of the numeric class, and defer correctness to
the f64 conversion of the accumulated run; a failed conversion is
InvalidNumber. -/
def parseNumber (s : List Char) : Except ParseError (Value × List Char) :=
  let numSplit : List Char × List Char :=
    match s with
    | [] => ([], [])
    | c :: rest =>
      if c = '-' then ('-' :: rest.takeWhile numChar, rest.dropWhile numChar)
      else ((c :: rest).takeWhile numChar, (c :: rest).dropWhile numChar)
  match rustParseF64 numSplit.1 with
  | some j => .ok (.num j, numSplit.2)
  | none => .error .InvalidNumber

/-- Model of Parser::parse_literal: accumulate consecutive alphabetic
characters and match the run against the three keyword spellings;
any other run is InvalidLiteral carrying the run. -/
def parseLiteral (s : List Char) : Except ParseError (Value × List Char) :=
  let lit := s.takeWhile Char.isAlpha
  let rest := s.dropWhile Char.isAlpha
  if lit = ("true".toList) then .ok (.bool true, rest)
  else if lit = ("false".toList) then .ok (.bool false, rest)
  else if lit = ("null".toList) then .ok (.null, rest)
  else .error (.InvalidLiteral lit)

mutual

/-- Model of Parser::parse_value, fuel-indexed: skip whitespace, then the
single lookahead character selects the production; any other character is
UnexpectedToken, exhausted input is UnexpectedEndOfInput. -/
def parseValueF : Nat → List Char → Except ParseError (Value × List Char)
  | 0, _ => .error .UnexpectedEndOfInput
  | f + 1, s =>
    match skipWs s with
    | [] => .error .UnexpectedEndOfInput
    | c :: rest =>
      if c = '{' then parseObjectF f rest
      else if c = '[' then parseArrayF f rest
      else if c = '"' then (parseStringF (rest.length + 1) rest).map (fun p => (.str p.1, p.2))
      else if c = 't' ∨ c = 'f' ∨ c = 'n' then parseLiteral (c :: rest)
      else if isDigitChar c ∨ c = '-' then parseNumber (c :: rest)
      else .error (.UnexpectedToken c)

/-- Model of Parser::parse_array after the opening bracket has been
consumed: an immediate closing bracket yields the empty array, otherwise
the element loop runs. -/
def parseArrayF : Nat → List Char → Except ParseError (Value × List Char)
  | 0, _ => .error .UnexpectedEndOfInput
  | f + 1, s =>
    match skipWs s with
    | [] => arrayLoopF f [] []
    | c :: rest =>
      if c = ']' then .ok (.arr [], rest)
      else arrayLoopF f [] (c :: rest)

/-- Element loop of Parser::parse_array: parse one value, skip
whitespace, then the next character must be a comma (continue) or the
closing bracket (finish); any other character is UnexpectedToken and
exhausted input is UnexpectedEndOfInput. -/
def arrayLoopF : Nat → List Value → List Char → Except ParseError (Value × List Char)
  | 0, _, _ => .error .UnexpectedEndOfInput
  | f + 1, acc, s =>
    match parseValueF f s with
    | .error e => .error e
    | .ok (v, r) =>
      match skipWs r with
      | [] => .error .UnexpectedEndOfInput
      | c :: t =>
        if c = ']' then .ok (.arr (acc ++ [v]), t)
        else if c = ',' then arrayLoopF f (acc ++ [v]) t
        else .error (.UnexpectedToken c)

/-- Model of Parser::parse_object after the opening brace has been
consumed: an immediate closing brace yields the empty object, otherwise
the member loop runs. -/
def parseObjectF : Nat → List Char → Except ParseError (Value × List Char)
  | 0, _ => .error .UnexpectedEndOfInput
  | f + 1, s =>
    match skipWs s with
    | [] => objLoopF f [] []
    | c :: rest =>
      if c = '\x7d' then .ok (.obj [], rest)
      else objLoopF f [] (c :: rest)

/-- Member loop of Parser::parse_object: parse one value which must be a
string (otherwise UnexpectedToken of a quote), skip whitespace, require a
colon (otherwise UnexpectedToken of a colon, also on exhausted input,
since the source compares the consumed option against the colon), parse
the member value, insert the binding, then a comma continues and the
closing brace finishes; any other character is UnexpectedToken and
exhausted input is UnexpectedEndOfInput. -/
def objLoopF : Nat → List (List Char × Value) → List Char →
    Except ParseError (Value × List Char)
  | 0, _, _ => .error .UnexpectedEndOfInput
  | f + 1, m, s =>
    match parseValueF f s with
    | .error e => .error e
    | .ok (v, r) =>
      match v with
      | .str key =>
        (match skipWs r with
         | [] => .error (.UnexpectedToken ':')
         | c :: r2 =>
           if c = ':' then
             (match parseValueF f r2 with
              | .error e => .error e
              | .ok (w, r3) =>
                match skipWs r3 with
                | [] => .error .UnexpectedEndOfInput
                | d :: t =>
                  if d = '\x7d' then .ok (.obj (insertAssoc m key w), t)
                  else if d = ',' then objLoopF f (insertAssoc m key w) t
                  else .error (.UnexpectedToken d))
           else .error (.UnexpectedToken ':'))
      | _ => .error (.UnexpectedToken '"')

end

/-- Model of from_str, the public entry point: parse one value, skip
trailing whitespace, then any remaining character is TrailingCharacters.
The fuel supplied is sufficient for every input (see the fuel-sufficiency
theorems). -/
def fromStr (s : List Char) : Except ParseError Value :=
  match parseValueF (3 * s.length + 4) s with
  | .error e => .error e
  | .ok (v, rest) => if skipWs rest = [] then .ok v else .error .TrailingCharacters

/-- Decimal digit character of a value below ten. -/
def digitChar (d : Nat) : Char := Char.ofNat (48 + d)

/-- Lowercase hexadecimal digit character of a value below sixteen, as the
lowercase-hex formatting the serializer requests produces. -/
def hexChar (d : Nat) : Char := Char.ofNat (if d < 10 then 48 + d else 87 + d)

/-- Fuel-indexed big-endian decimal digit run of a natural number. -/
def natToCharsAux : Nat → Nat → List Char → List Char
  | 0, _, acc => acc
  | f + 1, n, acc =>
    if n < 10 then digitChar n :: acc
    else natToCharsAux f (n / 10) (digitChar (n % 10) :: acc)

/-- Big-endian decimal digit run of a natural number; the run for zero is
the single zero digit. -/
def natToChars (n : Nat) : List Char := natToCharsAux (n + 1) n []

/-- Four-character zero-padded lowercase hexadecimal run, as the
width-four lowercase-hex formatting of a code point at most 0xFFFF
produces. -/
def toHex4 (n : Nat) : List Char :=
  [hexChar (n / 4096 % 16), hexChar (n / 256 % 16), hexChar (n / 16 % 16), hexChar (n % 16)]

/-- Escape table of the String arm of the Display implementation in
src/json/serializer.rs: the quote, backslash and slash and the five named
control characters get two-character escapes, every other character at
most 0x1F gets a four-digit lowercase hexadecimal escape, and every
remaining character passes through unchanged. -/
def escChar (c : Char) : List Char :=
  if c = '"' then ['\\', '"']
  else if c = '\\' then ['\\', '\\']
  else if c = '/' then ['\\', '/']
  else if c = '\x08' then ['\\', 'b']
  else if c = '\x0C' then ['\\', 'f']
  else if c = '\n' then ['\\', 'n']
  else if c = '\r' then ['\\', 'r']
  else if c = '\t' then ['\\', 't']
  else if c.toNat ≤ 0x1F then '\\' :: 'u' :: toHex4 c.toNat
  else [c]

/-- Escaped body of a serialized string: each character replaced by its
escape-table image. -/
def serStrBody : List Char → List Char
  | [] => []
  | c :: rest => escChar c ++ serStrBody rest

/-- Exact decimal numeral of the fraction n / 10^k for a nonnegative n:
no point when the scale is zero, otherwise the integer part, a point, and
the fractional part zero-padded to exactly k digits. -/
def serDecimal (n k : Nat) : List Char :=
  if k = 0 then natToChars n
  else
    natToChars (n / 10 ^ k) ++
      '.' :: (List.replicate (k - (natToChars (n % 10 ^ k)).length) '0' ++ natToChars (n % 10 ^ k))

/-- Number arm of the Display implementation: NaN and the infinities
print the null keyword (JSON has no literal for them), a finite value
prints as a decimal numeral denoting it (see the header comment on the
modelling of float formatting). -/
def serNum : JNum → List Char
  | .nan => ("null".toList)
  | .inf => ("null".toList)
  | .neginf => ("null".toList)
  | .fin n k => (if n < 0 then ['-'] else []) ++ serDecimal n.natAbs k

mutual

/-- The Display implementation for Value in src/json/serializer.rs:
depth-first compact serialization with no inserted whitespace; booleans
print their keyword, strings print quoted with the escape table, arrays
and objects print comma-separated between their brackets, object keys
print with the string rule. -/
def serValue : Value → List Char
  | .null => ("null".toList)
  | .bool b => if b then ("true".toList) else ("false".toList)
  | .num j => serNum j
  | .str s => '"' :: serStrBody s ++ ['"']
  | .arr vs => '[' :: serItems vs ++ [']']
  | .obj ms => '\x7b' :: serMembers ms ++ ['\x7d']

/-- Comma-separated serialized elements of an array, in order. -/
def serItems : List Value → List Char
  | [] => []
  | [v] => serValue v
  | v :: rest => serValue v ++ ',' :: serItems rest

/-- Comma-separated serialized members of an object, each a quoted
escaped key, a colon and the serialized value, in the iteration order of
the model association list. -/
def serMembers : List (List Char × Value) → List Char
  | [] => []
  | [(k, v)] => '"' :: serStrBody k ++ '"' :: ':' :: serValue v
  | (k, v) :: rest => ('"' :: serStrBody k ++ '"' :: ':' :: serValue v) ++ ',' :: serMembers rest

end

/-- Test that a model number is a finite f64 value: neither NaN nor an
infinity, and below the overflow threshold, so that the decimal fraction
it stands for converts back to a finite double. -/
def finiteNum : JNum → Bool
  | .fin n k => decide (n.natAbs < ovfThreshold * 10 ^ k)
  | _ => false

/-- Number payload a parse can produce: mkF64 yields a finite value below
the overflow threshold or an infinity, never a finite value whose
serialization would itself overflow on reparse. -/
def okNum : JNum → Bool
  | .fin n k => decide (n.natAbs < ovfThreshold * 10 ^ k)
  | _ => true

/-- Key list of an association list. -/
def keysOf (ms : List (List Char × Value)) : List (List Char) := ms.map Prod.fst

/-- Distinctness of the keys of an association list, the representation
invariant every Value built from a HashMap satisfies. -/
def distinctKeys : List (List Char × Value) → Bool
  | [] => true
  | (k, _) :: rest => rest.all (fun p => p.1 ≠ k) && distinctKeys rest

mutual

/-- A Value all of whose numbers are finite and all of whose objects have
distinct keys: the image of the embedding of any Rust Value built without
NaN or infinity, since a HashMap cannot hold a repeated key. -/
def goodVal : Value → Bool
  | .null => true
  | .bool _ => true
  | .num j => finiteNum j
  | .str _ => true
  | .arr vs => goodList vs
  | .obj ms => distinctKeys ms && goodMembers ms

/-- Every element of the list is good. -/
def goodList : List Value → Bool
  | [] => true
  | v :: rest => goodVal v && goodList rest

/-- Every member value of the association list is good. -/
def goodMembers : List (List Char × Value) → Bool
  | [] => true
  | (_, v) :: rest => goodVal v && goodMembers rest

end

mutual

/-- The invariant of the parse image: every object has distinct keys and
every number is a possible mkF64 result (finite below the threshold, or
an infinity from overflowing numeric text). -/
def okVal : Value → Bool
  | .null => true
  | .bool _ => true
  | .num j => okNum j
  | .str _ => true
  | .arr vs => okList vs
  | .obj ms => distinctKeys ms && okMembers ms

/-- Every element of the list satisfies the parse-image invariant. -/
def okList : List Value → Bool
  | [] => true
  | v :: rest => okVal v && okList rest

/-- Every member value satisfies the parse-image invariant. -/
def okMembers : List (List Char × Value) → Bool
  | [] => true
  | (_, v) :: rest => okVal v && okMembers rest

end

mutual

/-- The replacement reserialization performs on non-finite numbers: they
print as the text null, so reparsing the serialization yields Null in
their place and every other constructor unchanged. -/
def scrub : Value → Value
  | .null => .null
  | .bool b => .bool b
  | .num j => if finiteNum j then .num j else .null
  | .str s => .str s
  | .arr vs => .arr (scrubList vs)
  | .obj ms => .obj (scrubMembers ms)

/-- Pointwise scrub of an element list. -/
def scrubList : List Value → List Value
  | [] => []
  | v :: rest => scrub v :: scrubList rest

/-- Scrub of the member values of an association list, keys unchanged. -/
def scrubMembers : List (List Char × Value) → List (List Char × Value)
  | [] => []
  | (k, v) :: rest => (k, scrub v) :: scrubMembers rest

end

/-- Specification device for the duplicate-key claim: the member loop of
the object production re-expressed to return the parsed member sequence in
source order, duplicates included, instead of folding the insertions; the
bridge theorem below shows the member loop is the insertion fold of this
sequence. -/
def parseMembersF : Nat → List Char → Except ParseError (List (List Char × Value) × List Char)
  | 0, _ => .error .UnexpectedEndOfInput
  | f + 1, s =>
    match parseValueF f s with
    | .error e => .error e
    | .ok (v, r) =>
      match v with
      | .str key =>
        (match skipWs r with
         | [] => .error (.UnexpectedToken ':')
         | c :: r2 =>
           if c = ':' then
             (match parseValueF f r2 with
              | .error e => .error e
              | .ok (w, r3) =>
                match skipWs r3 with
                | [] => .error .UnexpectedEndOfInput
                | d :: t =>
                  if d = '\x7d' then .ok ([(key, w)], t)
                  else if d = ',' then (parseMembersF f t).map (fun p => ((key, w) :: p.1, p.2))
                  else .error (.UnexpectedToken d))
           else .error (.UnexpectedToken ':'))
      | _ => .error (.UnexpectedToken '"')

/-- Value of the rightmost member with the given key in a member
sequence, if any. -/
def lastBinding (k : List Char) (ms : List (List Char × Value)) : Option Value :=
  ms.foldl (fun acc p => if p.1 = k then some p.2 else acc) none

/-- Insertion fold of a member sequence into an association list, the
order the member loop performs it in. -/
def foldInsert (m : List (List Char × Value)) (ms : List (List Char × Value)) :
    List (List Char × Value) :=
  ms.foldl (fun acc p => insertAssoc acc p.1 p.2) m

/-- Specification device for the string-serialization claim: the escape
table as the claim states it, keyed on scalar values for the control
characters; compared below against the table transcribed from the
source. -/
def specEscape (c : Char) : List Char :=
  if c = '"' then ['\\', '"']
  else if c = '\\' then ['\\', '\\']
  else if c = '/' then ['\\', '/']
  else if c.toNat = 8 then ['\\', 'b']
  else if c.toNat = 12 then ['\\', 'f']
  else if c.toNat = 10 then ['\\', 'n']
  else if c.toNat = 13 then ['\\', 'r']
  else if c.toNat = 9 then ['\\', 't']
  else if c.toNat ≤ 0x1F then '\\' :: 'u' :: toHex4 c.toNat
  else [c]

/-- A lowercase hexadecimal digit character. -/
def isLowerHexDigit (c : Char) : Bool :=
  isDigitChar c || decide ('a' ≤ c ∧ c ≤ 'f')

/-- Specification device for the string-serialization claim: the whole
escaped body as the claim states it, each character replaced by its image
under the claim-side table. -/
def specEscapeStr : List Char → List Char
  | [] => []
  | c :: rest => specEscape c ++ specEscapeStr rest

/-- Every character of the list satisfies char::is_whitespace. -/
def allWs (w : List Char) : Prop := ∀ c ∈ w, rustIsWhitespace c = true

/-- The input either is exhausted or starts with a character that stops
both the greedy number scan and the literal scan; the separators and
closing brackets of serialized output and the empty input all qualify. -/
def sepHead (rest : List Char) : Prop :=
  ∀ c cs, rest = c :: cs → numChar c = false ∧ c.isAlpha = false

/-! Helper lemmas shared by several claims. -/

set_option maxRecDepth 4000 in
theorem ovfThreshold_eq : ovfThreshold = 2 ^ 1024 - 2 ^ 970 := by decide

theorem skipWs_cons_of_not_ws {c : Char} (s : List Char) (h : rustIsWhitespace c = false) :
    skipWs (c :: s) = c :: s := by
  simp [skipWs, List.dropWhile_cons, h]

theorem skipWs_nil : skipWs [] = [] := rfl

theorem parseValueF_succ (f : Nat) (s : List Char) :
    parseValueF (f + 1) s =
      match skipWs s with
      | [] => .error .UnexpectedEndOfInput
      | c :: rest =>
        if c = '\x7b' then parseObjectF f rest
        else if c = '[' then parseArrayF f rest
        else if c = '"' then (parseStringF (rest.length + 1) rest).map (fun p => (.str p.1, p.2))
        else if c = 't' ∨ c = 'f' ∨ c = 'n' then parseLiteral (c :: rest)
        else if isDigitChar c ∨ c = '-' then parseNumber (c :: rest)
        else .error (.UnexpectedToken c) := rfl

theorem parseValueF_quote (f : Nat) (rest : List Char) :
    parseValueF (f + 1) ('"' :: rest) =
      (parseStringF (rest.length + 1) rest).map (fun p => (.str p.1, p.2)) := rfl

theorem parseValueF_lbrace (f : Nat) (rest : List Char) :
    parseValueF (f + 1) ('\x7b' :: rest) = parseObjectF f rest := rfl

theorem parseValueF_lbrack (f : Nat) (rest : List Char) :
    parseValueF (f + 1) ('[' :: rest) = parseArrayF f rest := rfl

theorem fromStr_of_parse {s : List Char} {v : Value} {r : List Char}
    (h : parseValueF (3 * s.length + 4) s = .ok (v, r)) :
    fromStr s = if skipWs r = [] then .ok v else .error .TrailingCharacters := by
  unfold fromStr
  rw [h]

theorem fromStr_of_err {s : List Char} {e : ParseError}
    (h : parseValueF (3 * s.length + 4) s = .error e) :
    fromStr s = .error e := by
  unfold fromStr
  rw [h]

/-! The claims. -/

theorem arrayLoopF_succ (f : Nat) (acc : List Value) (s : List Char) :
    arrayLoopF (f + 1) acc s =
      match parseValueF f s with
      | .error e => .error e
      | .ok (v, r) =>
        match skipWs r with
        | [] => .error .UnexpectedEndOfInput
        | c :: t =>
          if c = ']' then .ok (.arr (acc ++ [v]), t)
          else if c = ',' then arrayLoopF f (acc ++ [v]) t
          else .error (.UnexpectedToken c) := rfl

theorem objLoopF_succ (f : Nat) (m : List (List Char × Value)) (s : List Char) :
    objLoopF (f + 1) m s =
      match parseValueF f s with
      | .error e => .error e
      | .ok (v, r) =>
        match v with
        | .str key =>
          (match skipWs r with
           | [] => .error (.UnexpectedToken ':')
           | c :: r2 =>
             if c = ':' then
               (match parseValueF f r2 with
                | .error e => .error e
                | .ok (w, r3) =>
                  match skipWs r3 with
                  | [] => .error .UnexpectedEndOfInput
                  | d :: t =>
                    if d = '\x7d' then .ok (.obj (insertAssoc m key w), t)
                    else if d = ',' then objLoopF f (insertAssoc m key w) t
                    else .error (.UnexpectedToken d))
             else .error (.UnexpectedToken ':'))
        | _ => .error (.UnexpectedToken '"') := rfl

/-- C4: the numeric edge cases hold exactly: parsing the text 0 yields the
number zero, parsing the text -2.5E-2 yields the number -0.025 (stored as
the exact fraction -25 over a thousand, whose rational value is -0.025),
and the serializer maps NaN and both infinities to the four-character null
keyword. -/
theorem c4_numeric_edge_cases :
    fromStr ("0".toList) = .ok (.num (.fin 0 0)) ∧
    jnumToRat (.fin 0 0) = 0 ∧
    fromStr ("-2.5E-2".toList) = .ok (.num (.fin (-25) 3)) ∧
    jnumToRat (.fin (-25) 3) = -0.025 ∧
    serValue (.num .nan) = ("null".toList) ∧
    serValue (.num .inf) = ("null".toList) ∧
    serValue (.num .neginf) = ("null".toList) ∧
    ("null".toList).length = 4 :=
  ⟨rfl, by norm_num [jnumToRat], rfl, by norm_num [jnumToRat], rfl, rfl, rfl, rfl⟩

/-- C6: the four error-precision cases hold exactly: the truncated keyword
yields InvalidLiteral carrying the truncated run, a non-string object key
yields UnexpectedToken of a quote, content after a complete value yields
TrailingCharacters, and an unterminated string yields UnterminatedString. -/
theorem c6_error_precision :
    fromStr ("tru".toList) = .error (.InvalidLiteral ("tru".toList)) ∧
    fromStr ("\x7b1:2\x7d".toList) = .error (.UnexpectedToken '"') ∧
    fromStr ("null 0".toList) = .error .TrailingCharacters ∧
    fromStr ("\"open".toList) = .error .UnterminatedString :=
  ⟨rfl, rfl, rfl, rfl⟩

/-- C5, counterexample: on the input of an open brace and a quoted key,
where the input is exhausted while the object production awaits the colon,
parse returns UnexpectedToken of a colon and not UnexpectedEndOfInput as
the claim states; the source compares the consumed option against the
colon and reports UnexpectedToken in both the wrong-character and the
end-of-input case. -/
theorem c5_colon_counterexample :
    fromStr ("\x7b\"a\"".toList) = .error (.UnexpectedToken ':') ∧
    fromStr ("\x7b\"a\"".toList) ≠ .error .UnexpectedEndOfInput := by
  have base : fromStr ("\x7b\"a\"".toList) = .error (.UnexpectedToken ':') := rfl
  exact ⟨base, by rw [base]; simp⟩

/-- C5, amended: end-of-input at value dispatch, after an array element
awaiting a comma or closing bracket, and after an object member awaiting a
comma or closing brace each yield UnexpectedEndOfInput; but end-of-input
after an object key awaiting the colon yields UnexpectedToken of a colon,
as on the input of an open brace and a quoted key. -/
theorem c5_end_of_input_amended :
    (∀ f s, skipWs s = [] → parseValueF (f + 1) s = .error .UnexpectedEndOfInput) ∧
    (∀ f acc s v r, parseValueF f s = .ok (v, r) → skipWs r = [] →
      arrayLoopF (f + 1) acc s = .error .UnexpectedEndOfInput) ∧
    (∀ f m s key r r2 w r3, parseValueF f s = .ok (.str key, r) → skipWs r = ':' :: r2 →
      parseValueF f r2 = .ok (w, r3) → skipWs r3 = [] →
      objLoopF (f + 1) m s = .error .UnexpectedEndOfInput) ∧
    (∀ f m s key r, parseValueF f s = .ok (.str key, r) → skipWs r = [] →
      objLoopF (f + 1) m s = .error (.UnexpectedToken ':')) ∧
    fromStr ("\x7b\"a\"".toList) = .error (.UnexpectedToken ':') := by
  refine ⟨?_, ?_, ?_, ?_, rfl⟩
  · intro f s hs
    rw [parseValueF_succ, hs]
  · intro f acc s v r hv hr
    simp only [arrayLoopF_succ, hv, hr]
  · intro f m s key r r2 w r3 hv hc hw hr
    simp only [objLoopF_succ, hv, hc, hw, hr, reduceIte]
  · intro f m s key r hv hr
    simp only [objLoopF_succ, hv, hr]

/-- C5, witness: the amended theorem applied at concrete inputs: an
exhausted empty input at dispatch, the input of a single digit inside an
array element loop, and the member loop of the counterexample input. -/
theorem c5_end_of_input_witness :
    parseValueF 1 [] = .error .UnexpectedEndOfInput ∧
    arrayLoopF 8 [] ("1".toList) = .error .UnexpectedEndOfInput ∧
    objLoopF 14 [] ("\"a\":1".toList) = .error .UnexpectedEndOfInput ∧
    objLoopF 14 [] ("\"a\"".toList) = .error (.UnexpectedToken ':') :=
  ⟨c5_end_of_input_amended.1 0 [] rfl,
   c5_end_of_input_amended.2.1 7 [] ("1".toList) (.num (.fin 1 0)) [] rfl rfl,
   c5_end_of_input_amended.2.2.1 13 [] ("\"a\":1".toList) ("a".toList) (":1".toList) ("1".toList)
     (.num (.fin 1 0)) [] rfl rfl rfl rfl,
   c5_end_of_input_amended.2.2.2.1 13 [] ("\"a\"".toList) ("a".toList) [] rfl rfl⟩

theorem parseStringF_backslash (f : Nat) (e : Char) (rest : List Char) :
    parseStringF (f + 1) ('\\' :: e :: rest) =
      match escDecode e with
      | some d => (parseStringF f rest).map (fun p => (d :: p.1, p.2))
      | none =>
        if e = 'u' then
          match rest with
          | h1 :: h2 :: h3 :: h4 :: rest3 =>
            (match fromStrRadix16 [h1, h2, h3, h4] with
             | none => .error (.InvalidEscapeSequence 'u')
             | some code =>
               match charFromU32 code with
               | none => .error (.InvalidEscapeSequence 'u')
               | some ch => (parseStringF f rest3).map (fun p => (ch :: p.1, p.2)))
          | _ => .error .UnterminatedString
        else .error (.InvalidEscapeSequence e) := rfl

theorem escDecode_eq_none {e : Char}
    (he : ¬(e = '"' ∨ e = '\\' ∨ e = '/' ∨ e = 'b' ∨ e = 'f' ∨ e = 'n' ∨ e = 'r' ∨ e = 't')) :
    escDecode e = none := by
  push_neg at he
  obtain ⟨h1, h2, h3, h4, h5, h6, h7, h8⟩ := he
  simp [escDecode, h1, h2, h3, h4, h5, h6, h7, h8]

/-- C8: escape handling recognizes exactly the escape set of the source:
a backslash followed by any character outside the nine-character
introducer set fails with InvalidEscapeSequence carrying that character,
both at the string production and through the entry point; the eight
named escapes decode to the quote, backslash, slash, backspace, form-feed,
newline, carriage-return and tab characters respectively and the
production continues with the decoded character accumulated; and a
backslash-u escape whose four following characters convert as hexadecimal
to the code of a valid scalar value continues with that scalar value
accumulated. -/
theorem c8_escape_handling :
    (∀ e, ¬(e = '"' ∨ e = '\\' ∨ e = '/' ∨ e = 'b' ∨ e = 'f' ∨ e = 'n' ∨ e = 'r' ∨ e = 't' ∨
        e = 'u') →
      ∀ f rest, parseStringF (f + 1) ('\\' :: e :: rest) = .error (.InvalidEscapeSequence e)) ∧
    (∀ e, ¬(e = '"' ∨ e = '\\' ∨ e = '/' ∨ e = 'b' ∨ e = 'f' ∨ e = 'n' ∨ e = 'r' ∨ e = 't' ∨
        e = 'u') →
      ∀ rest, fromStr ('"' :: '\\' :: e :: rest) = .error (.InvalidEscapeSequence e)) ∧
    escDecode '"' = some '"' ∧ escDecode '\\' = some '\\' ∧ escDecode '/' = some '/' ∧
    escDecode 'b' = some '\x08' ∧ escDecode 'f' = some '\x0C' ∧ escDecode 'n' = some '\n' ∧
    escDecode 'r' = some '\r' ∧ escDecode 't' = some '\t' ∧
    (∀ f e d rest, escDecode e = some d →
      parseStringF (f + 1) ('\\' :: e :: rest) =
        (parseStringF f rest).map (fun p => (d :: p.1, p.2))) ∧
    (∀ f h1 h2 h3 h4 rest code ch, fromStrRadix16 [h1, h2, h3, h4] = some code →
      charFromU32 code = some ch →
      parseStringF (f + 1) ('\\' :: 'u' :: h1 :: h2 :: h3 :: h4 :: rest) =
        (parseStringF f rest).map (fun p => (ch :: p.1, p.2))) := by
  have outside : ∀ e, ¬(e = '"' ∨ e = '\\' ∨ e = '/' ∨ e = 'b' ∨ e = 'f' ∨ e = 'n' ∨ e = 'r' ∨
      e = 't' ∨ e = 'u') →
      ∀ f rest, parseStringF (f + 1) ('\\' :: e :: rest) = .error (.InvalidEscapeSequence e) := by
    intro e he f rest
    have hu : e ≠ 'u' := fun h => he (by simp [h])
    have hnone : escDecode e = none := escDecode_eq_none (fun h => he (by tauto))
    simp only [parseStringF_backslash, hnone, if_neg hu]
  refine ⟨outside, ?_, rfl, rfl, rfl, rfl, rfl, rfl, rfl, rfl, ?_, ?_⟩
  · intro e he rest
    apply fromStr_of_err
    have hf : 3 * (('"' :: '\\' :: e :: rest).length) + 4 = (3 * rest.length + 12) + 1 := by
      simp [List.length_cons]
      ring
    rw [hf, parseValueF_quote]
    have hfl : ('\\' :: e :: rest).length + 1 = (rest.length + 2) + 1 := by
      simp [List.length_cons]
    rw [hfl, outside e he (rest.length + 2) rest]
    rfl
  · intro f e d rest hd
    simp only [parseStringF_backslash, hd]
  · intro f h1 h2 h3 h4 rest code ch hcode hch
    simp only [parseStringF_backslash, hcode, hch]
    rfl

/-- C8, witness: the escape theorem applied at concrete inputs: the
escape introducer q fails with InvalidEscapeSequence of q both at the
string production and through the entry point, the named newline escape
continues with a newline accumulated, and the backslash-u escape of the
four hexadecimal digits 0061 continues with the letter a accumulated. -/
theorem c8_escape_handling_witness :
    parseStringF 1 ('\\' :: 'q' :: []) = .error (.InvalidEscapeSequence 'q') ∧
    fromStr ('"' :: '\\' :: 'q' :: '"' :: []) = .error (.InvalidEscapeSequence 'q') ∧
    parseStringF 1 ('\\' :: 'n' :: []) = (parseStringF 0 []).map (fun p => ('\n' :: p.1, p.2)) ∧
    parseStringF 1 ('\\' :: 'u' :: '0' :: '0' :: '6' :: '1' :: []) =
      (parseStringF 0 []).map (fun p => ('a' :: p.1, p.2)) :=
  ⟨c8_escape_handling.1 'q' (by decide) 0 [],
   c8_escape_handling.2.1 'q' (by decide) ['"'],
   c8_escape_handling.2.2.2.2.2.2.2.2.2.2.1 0 'n' '\n' [] rfl,
   c8_escape_handling.2.2.2.2.2.2.2.2.2.2.2 0 '0' '0' '6' '1' [] 97 'a' rfl rfl⟩

/-- C10: edge behavior of the backslash-u escape: when the four following
characters do not convert as a hexadecimal number the error is
InvalidEscapeSequence carrying the letter u, when the converted code is
not a valid scalar value (a lone surrogate) the error is again
InvalidEscapeSequence carrying the letter u, and when the input ends
before four characters have been read after the escape the error is
UnterminatedString; concretely, the lone surrogate escape d800 fails with
InvalidEscapeSequence of u through the entry point. -/
theorem c10_u_escape_edges :
    (∀ f h1 h2 h3 h4 rest, fromStrRadix16 [h1, h2, h3, h4] = none →
      parseStringF (f + 1) ('\\' :: 'u' :: h1 :: h2 :: h3 :: h4 :: rest) =
        .error (.InvalidEscapeSequence 'u')) ∧
    (∀ f h1 h2 h3 h4 rest code, fromStrRadix16 [h1, h2, h3, h4] = some code →
      charFromU32 code = none →
      parseStringF (f + 1) ('\\' :: 'u' :: h1 :: h2 :: h3 :: h4 :: rest) =
        .error (.InvalidEscapeSequence 'u')) ∧
    (∀ f cs, cs.length < 4 →
      parseStringF (f + 1) ('\\' :: 'u' :: cs) = .error .UnterminatedString) ∧
    fromStr ("\"\\ud800\"".toList) = .error (.InvalidEscapeSequence 'u') ∧
    fromStr ("\"\\uzz11\"".toList) = .error (.InvalidEscapeSequence 'u') ∧
    fromStr ("\"\\u00".toList) = .error .UnterminatedString := by
  refine ⟨?_, ?_, ?_, rfl, rfl, rfl⟩
  · intro f h1 h2 h3 h4 rest hcode
    simp only [parseStringF_backslash, hcode]
    rfl
  · intro f h1 h2 h3 h4 rest code hcode hch
    simp only [parseStringF_backslash, hcode, hch]
    rfl
  · intro f cs hlen
    match cs with
    | [] => rfl
    | [a] => rfl
    | [a, b] => rfl
    | [a, b, c] => rfl
    | a :: b :: c :: d :: t => exact absurd hlen (by simp)

/-- C10, witness: the edge theorem applied at concrete inputs: the
non-hexadecimal run zz11, the lone surrogate code d800, and an input
exhausted two characters after the escape. -/
theorem c10_u_escape_edges_witness :
    parseStringF 1 ('\\' :: 'u' :: 'z' :: 'z' :: '1' :: '1' :: []) =
      .error (.InvalidEscapeSequence 'u') ∧
    parseStringF 1 ('\\' :: 'u' :: 'd' :: '8' :: '0' :: '0' :: []) =
      .error (.InvalidEscapeSequence 'u') ∧
    parseStringF 1 ('\\' :: 'u' :: '0' :: '0' :: []) = .error .UnterminatedString :=
  ⟨c10_u_escape_edges.1 0 'z' 'z' '1' '1' [] rfl,
   c10_u_escape_edges.2.1 0 'd' '8' '0' '0' [] 55296 rfl rfl,
   c10_u_escape_edges.2.2.1 0 ['0', '0'] (by decide)⟩

theorem char_eq_iff_toNat (c d : Char) : c = d ↔ c.toNat = d.toNat := by
  constructor
  · intro h
    rw [h]
  · intro h
    have h2 := Char.ofNat_toNat c
    rw [h, Char.ofNat_toNat d] at h2
    exact h2.symm

theorem escChar_eq_specEscape (c : Char) : escChar c = specEscape c := by
  by_cases h1 : c = '"'
  · subst h1; rfl
  by_cases h2 : c = '\\'
  · subst h2; rfl
  by_cases h3 : c = '/'
  · subst h3; rfl
  by_cases h4 : c = '\x08'
  · subst h4; rfl
  by_cases h5 : c = '\x0C'
  · subst h5; rfl
  by_cases h6 : c = '\n'
  · subst h6; rfl
  by_cases h7 : c = '\r'
  · subst h7; rfl
  by_cases h8 : c = '\t'
  · subst h8; rfl
  have n4 : ¬(c.toNat = 8) := fun h => h4 ((char_eq_iff_toNat c '\x08').2 h)
  have n5 : ¬(c.toNat = 12) := fun h => h5 ((char_eq_iff_toNat c '\x0C').2 h)
  have n6 : ¬(c.toNat = 10) := fun h => h6 ((char_eq_iff_toNat c '\n').2 h)
  have n7 : ¬(c.toNat = 13) := fun h => h7 ((char_eq_iff_toNat c '\r').2 h)
  have n8 : ¬(c.toNat = 9) := fun h => h8 ((char_eq_iff_toNat c '\t').2 h)
  unfold escChar specEscape
  rw [if_neg h1, if_neg h2, if_neg h3, if_neg h4, if_neg h5, if_neg h6, if_neg h7, if_neg h8,
    if_neg h1, if_neg h2, if_neg h3, if_neg n4, if_neg n5, if_neg n6, if_neg n7, if_neg n8]

/-- C9: a String value serializes as an opening quote, each character
transformed by exactly the table the claim states (quote, backslash,
slash and the five named control characters as their two-character
escapes, any other character of scalar value at most 0x1F as a
backslash-u escape of four lowercase hexadecimal digits, every other
character unchanged), and a closing quote: the table transcribed from the
source is pointwise equal to the claim-side table, the String arm emits
exactly quote, escaped body, quote, the four emitted digits are four
lowercase hexadecimal digits, and they denote the escaped scalar value. -/
theorem c9_string_serialization :
    (∀ c, escChar c = specEscape c) ∧
    (∀ s, serValue (.str s) = '"' :: specEscapeStr s ++ ['"']) ∧
    (∀ n, n ≤ 0x1F → ((toHex4 n).length = 4 ∧ (toHex4 n).all isLowerHexDigit = true)) ∧
    (∀ n, n ≤ 0x1F → fromStrRadix16 (toHex4 n) = some n) := by
  have hbody : ∀ s, serStrBody s = specEscapeStr s := by
    intro s
    induction s with
    | nil => rfl
    | cons c rest ih =>
      show escChar c ++ serStrBody rest = specEscape c ++ specEscapeStr rest
      rw [escChar_eq_specEscape, ih]
  refine ⟨escChar_eq_specEscape, ?_, by decide, by decide⟩
  intro s
  show '"' :: serStrBody s ++ ['"'] = '"' :: specEscapeStr s ++ ['"']
  rw [hbody]

/-- C9, witness: the serialization theorem applied at the scalar value
0x1F and at a concrete string containing a quote, a slash, a tab and a
control character. -/
theorem c9_string_serialization_witness :
    (toHex4 0x1F).length = 4 ∧ (toHex4 0x1F).all isLowerHexDigit = true ∧
    fromStrRadix16 (toHex4 0x1F) = some 0x1F ∧
    serValue (.str ('"' :: '/' :: '\t' :: '\x1F' :: 'A' :: [])) =
      '"' :: specEscapeStr ('"' :: '/' :: '\t' :: '\x1F' :: 'A' :: []) ++ ['"'] :=
  ⟨(c9_string_serialization.2.2.1 0x1F (by decide)).1,
   (c9_string_serialization.2.2.1 0x1F (by decide)).2,
   c9_string_serialization.2.2.2 0x1F (by decide),
   c9_string_serialization.2.1 ('"' :: '/' :: '\t' :: '\x1F' :: 'A' :: [])⟩

theorem parseMembersF_succ (f : Nat) (s : List Char) :
    parseMembersF (f + 1) s =
      match parseValueF f s with
      | .error e => .error e
      | .ok (v, r) =>
        match v with
        | .str key =>
          (match skipWs r with
           | [] => .error (.UnexpectedToken ':')
           | c :: r2 =>
             if c = ':' then
               (match parseValueF f r2 with
                | .error e => .error e
                | .ok (w, r3) =>
                  match skipWs r3 with
                  | [] => .error .UnexpectedEndOfInput
                  | d :: t =>
                    if d = '\x7d' then .ok ([(key, w)], t)
                    else if d = ',' then (parseMembersF f t).map (fun p => ((key, w) :: p.1, p.2))
                    else .error (.UnexpectedToken d))
             else .error (.UnexpectedToken ':'))
        | _ => .error (.UnexpectedToken '"') := rfl

theorem lookupAssoc_insertAssoc (m : List (List Char × Value)) (k q : List Char) (v : Value) :
    lookupAssoc (insertAssoc m k v) q = if k = q then some v else lookupAssoc m q := by
  induction m with
  | nil =>
    simp [insertAssoc, lookupAssoc]
  | cons p rest ih =>
    obtain ⟨k0, v0⟩ := p
    by_cases h0 : k0 = k
    · subst h0
      simp only [insertAssoc, if_pos rfl, lookupAssoc]
      by_cases hq : k0 = q
      · subst hq
        simp
      · simp [hq]
    · simp only [insertAssoc, if_neg h0, lookupAssoc]
      by_cases hq : k0 = q
      · subst hq
        have hk : ¬(k = k0) := fun h => h0 h.symm
        simp [hk]
      · simp [hq, ih]

theorem lastBinding_step (k : List Char) (rest : List (List Char × Value))
    (acc : Option Value) :
    List.foldl (fun acc p => if p.1 = k then some p.2 else acc) acc rest =
      match lastBinding k rest with
      | some v => some v
      | none => acc := by
  induction rest generalizing acc with
  | nil => rfl
  | cons p rest ih =>
    show List.foldl _ (if p.1 = k then some p.2 else acc) rest = _
    rw [ih]
    show _ = match lastBinding k (p :: rest) with
      | some v => some v
      | none => acc
    have h2 : lastBinding k (p :: rest) =
        match lastBinding k rest with
        | some v => some v
        | none => if p.1 = k then some p.2 else none := by
      show List.foldl _ (if p.1 = k then some p.2 else none) rest = _
      rw [ih]
    rw [h2]
    cases lastBinding k rest with
    | some v => rfl
    | none =>
      by_cases hp : p.1 = k
      · simp [hp]
      · simp [hp]

theorem lookupAssoc_foldInsert (ms : List (List Char × Value))
    (m : List (List Char × Value)) (k : List Char) :
    lookupAssoc (foldInsert m ms) k =
      match lastBinding k ms with
      | some v => some v
      | none => lookupAssoc m k := by
  induction ms generalizing m with
  | nil => rfl
  | cons p rest ih =>
    obtain ⟨k0, v0⟩ := p
    show lookupAssoc (foldInsert (insertAssoc m k0 v0) rest) k = _
    rw [ih]
    have h2 : lastBinding k ((k0, v0) :: rest) =
        match lastBinding k rest with
        | some v => some v
        | none => if k0 = k then some v0 else none := by
      show List.foldl _ (if k0 = k then some v0 else none) rest = _
      rw [lastBinding_step]
    rw [h2, lookupAssoc_insertAssoc]
    cases lastBinding k rest with
    | some v => rfl
    | none =>
      by_cases hk : k0 = k
      · simp [hk]
      · simp [hk]

theorem objLoopF_bridge : ∀ f m s,
    objLoopF f m s =
      (parseMembersF f s).map (fun p => (Value.obj (foldInsert m p.1), p.2)) := by
  intro f
  induction f with
  | zero => intro m s; rfl
  | succ f ih =>
    intro m s
    rw [objLoopF_succ, parseMembersF_succ]
    cases hv : parseValueF f s with
    | error e => rfl
    | ok p =>
      obtain ⟨v, r⟩ := p
      cases v with
      | str key =>
        dsimp only
        cases hr : skipWs r with
        | nil => rfl
        | cons c r2 =>
          dsimp only
          by_cases hc : c = ':'
          · subst hc
            simp only [reduceIte]
            cases hw : parseValueF f r2 with
            | error e => rfl
            | ok q =>
              obtain ⟨w, r3⟩ := q
              dsimp only
              cases hr3 : skipWs r3 with
              | nil => rfl
              | cons d t =>
                dsimp only
                by_cases hd : d = '\x7d'
                · subst hd
                  simp only [reduceIte]
                  rfl
                · rw [if_neg hd, if_neg hd]
                  by_cases hd2 : d = ','
                  · subst hd2
                    simp only [reduceIte]
                    show objLoopF f (insertAssoc m key w) t = _
                    rw [ih]
                    cases parseMembersF f t with
                    | error e => rfl
                    | ok p2 => rfl
                  · rw [if_neg hd2, if_neg hd2]
                    rfl
          · rw [if_neg hc, if_neg hc]
            rfl
      | null => rfl
      | bool b => rfl
      | num j => rfl
      | arr l => rfl
      | obj l => rfl

/-- C3: parsing an object with duplicate keys resolves each key to the
last value parsed for it: the duplicate-key input parses to the object
whose only binding maps the key to the number two; and in general the
member loop produces exactly the insertion fold of the parsed member
sequence, in which the final binding of every key is the value of its
rightmost occurrence in that sequence. -/
theorem c3_last_write_wins :
    fromStr ("\x7b\"a\":1,\"a\":2\x7d".toList) =
      .ok (.obj [("a".toList, .num (.fin 2 0))]) ∧
    lookupAssoc [("a".toList, Value.num (.fin 2 0))] ("a".toList) =
      some (.num (.fin 2 0)) ∧
    (∀ f s ms rest m, parseMembersF f s = .ok (ms, rest) →
      objLoopF f m s = .ok (.obj (foldInsert m ms), rest)) ∧
    (∀ ms m k, lookupAssoc (foldInsert m ms) k =
      match lastBinding k ms with
      | some v => some v
      | none => lookupAssoc m k) := by
  refine ⟨rfl, rfl, ?_, lookupAssoc_foldInsert⟩
  intro f s ms rest m h
  rw [objLoopF_bridge, h]
  rfl

/-- C3, witness: the general statement applied at the duplicate-key
member sequence of the concrete input, at the fuel the entry point
reaches the member loop with. -/
theorem c3_last_write_wins_witness :
    objLoopF 41 [] ("\"a\":1,\"a\":2\x7d".toList) =
      .ok (.obj (foldInsert []
        [("a".toList, Value.num (.fin 1 0)), ("a".toList, Value.num (.fin 2 0))]), []) ∧
    lookupAssoc (foldInsert []
        [("a".toList, Value.num (.fin 1 0)), ("a".toList, Value.num (.fin 2 0))])
        ("a".toList) =
      match lastBinding ("a".toList)
          [("a".toList, Value.num (.fin 1 0)), ("a".toList, Value.num (.fin 2 0))] with
      | some v => some v
      | none => lookupAssoc [] ("a".toList) :=
  ⟨c3_last_write_wins.2.2.1 41 ("\"a\":1,\"a\":2\x7d".toList)
      [("a".toList, Value.num (.fin 1 0)), ("a".toList, Value.num (.fin 2 0))] [] [] rfl,
   c3_last_write_wins.2.2.2
      [("a".toList, Value.num (.fin 1 0)), ("a".toList, Value.num (.fin 2 0))] [] ("a".toList)⟩

/-! Scanning helpers: splitting a takeWhile and dropWhile pair at a known
boundary. -/

theorem takeWhile_append_of_all {p : Char → Bool} :
    ∀ (xs ys : List Char), (∀ c ∈ xs, p c = true) →
      (xs ++ ys).takeWhile p = xs ++ ys.takeWhile p ∧
      (xs ++ ys).dropWhile p = ys.dropWhile p := by
  intro xs
  induction xs with
  | nil => intro ys _; exact ⟨rfl, rfl⟩
  | cons c rest ih =>
    intro ys hall
    have hc : p c = true := hall c (List.mem_cons_self c rest)
    have hrest := ih ys (fun d hd => hall d (List.mem_cons_of_mem c hd))
    constructor
    · show List.takeWhile p (c :: (rest ++ ys)) = _
      rw [List.takeWhile_cons, if_pos hc, hrest.1]
      rfl
    · show List.dropWhile p (c :: (rest ++ ys)) = _
      rw [List.dropWhile_cons, if_pos hc, hrest.2]

theorem takeWhile_head_false {p : Char → Bool} {ys : List Char}
    (h : ∀ c cs, ys = c :: cs → p c = false) :
    ys.takeWhile p = [] ∧ ys.dropWhile p = ys := by
  cases ys with
  | nil => exact ⟨rfl, rfl⟩
  | cons c cs =>
    have hc := h c cs rfl
    constructor
    · rw [List.takeWhile_cons, if_neg (by simp [hc])]
    · rw [List.dropWhile_cons, if_neg (by simp [hc])]

theorem scan_split {p : Char → Bool} {xs ys : List Char}
    (hall : ∀ c ∈ xs, p c = true) (hhead : ∀ c cs, ys = c :: cs → p c = false) :
    (xs ++ ys).takeWhile p = xs ∧ (xs ++ ys).dropWhile p = ys := by
  obtain ⟨h1, h2⟩ := takeWhile_append_of_all xs ys hall
  obtain ⟨h3, h4⟩ := takeWhile_head_false hhead
  exact ⟨by rw [h1, h3, List.append_nil], by rw [h2, h4]⟩

/-! Decimal digit runs. -/

theorem digitChar_toNat : ∀ d, d < 10 → (digitChar d).toNat = 48 + d := by decide

theorem digitChar_isDigit : ∀ d, d < 10 → isDigitChar (digitChar d) = true := by decide

theorem digitsToNat_append (xs : List Char) (c : Char) :
    digitsToNat (xs ++ [c]) = 10 * digitsToNat xs + (c.toNat - 48) := by
  show List.foldl _ 0 (xs ++ [c]) = _
  rw [List.foldl_append]
  rfl

theorem natToCharsAux_decomp : ∀ n f acc, n < f →
    natToCharsAux f n acc = natToChars n ++ acc := by
  intro n
  induction n using Nat.strong_induction_on with
  | _ n ih =>
    intro f acc hf
    match f, hf with
    | f + 1, hf =>
      by_cases h10 : n < 10
      · show natToCharsAux (f + 1) n acc = natToCharsAux (n + 1) n [] ++ acc
        unfold natToCharsAux
        rw [if_pos h10, if_pos h10]
        rfl
      · have hd : n / 10 < n := Nat.div_lt_self (by omega) (by omega)
        show natToCharsAux (f + 1) n acc = natToCharsAux (n + 1) n [] ++ acc
        unfold natToCharsAux
        rw [if_neg h10, if_neg h10]
        rw [ih (n / 10) hd f _ (by omega), ih (n / 10) hd n _ (by omega)]
        simp

theorem natToChars_step {n : Nat} (h : ¬n < 10) :
    natToChars n = natToChars (n / 10) ++ [digitChar (n % 10)] := by
  show natToCharsAux (n + 1) n [] = _
  unfold natToCharsAux
  rw [if_neg h]
  exact natToCharsAux_decomp (n / 10) n _ (Nat.div_lt_self (by omega) (by omega))

theorem natToChars_small {n : Nat} (h : n < 10) : natToChars n = [digitChar n] := by
  show natToCharsAux (n + 1) n [] = _
  unfold natToCharsAux
  rw [if_pos h]

theorem natToChars_spec : ∀ n, digitsToNat (natToChars n) = n ∧
    (∀ c ∈ natToChars n, isDigitChar c = true) ∧ natToChars n ≠ [] := by
  intro n
  induction n using Nat.strong_induction_on with
  | _ n ih =>
    by_cases h10 : n < 10
    · rw [natToChars_small h10]
      refine ⟨?_, ?_, by simp⟩
      · show 10 * 0 + ((digitChar n).toNat - 48) = n
        rw [digitChar_toNat n h10]
        omega
      · intro c hc
        rw [List.mem_singleton] at hc
        subst hc
        exact digitChar_isDigit n h10
    · have hd : n / 10 < n := Nat.div_lt_self (by omega) (by omega)
      obtain ⟨hv, hdig, _⟩ := ih (n / 10) hd
      rw [natToChars_step h10]
      refine ⟨?_, ?_, by simp⟩
      · rw [digitsToNat_append, hv, digitChar_toNat (n % 10) (Nat.mod_lt n (by omega))]
        omega
      · intro c hc
        rw [List.mem_append] at hc
        cases hc with
        | inl h => exact hdig c h
        | inr h =>
          rw [List.mem_singleton] at h
          subst h
          exact digitChar_isDigit (n % 10) (Nat.mod_lt n (by omega))

theorem natToChars_length_le : ∀ d n, 1 ≤ d → n < 10 ^ d → (natToChars n).length ≤ d := by
  intro d
  induction d with
  | zero => omega
  | succ d ihd =>
    intro n _ hn
    by_cases h10 : n < 10
    · rw [natToChars_small h10]
      simp
    · have hd1 : 1 ≤ d := by
        by_contra h
        have : d = 0 := by omega
        subst this
        simp at hn
        omega
      rw [natToChars_step h10]
      have : n / 10 < 10 ^ d := by
        rw [pow_succ] at hn
        omega
      have := ihd (n / 10) hd1 this
      simp [List.length_append]
      omega

theorem digitsToNat_replicate_zero : ∀ j ds,
    digitsToNat (List.replicate j '0' ++ ds) = digitsToNat ds := by
  intro j
  induction j with
  | zero => intro ds; rfl
  | succ j ih =>
    intro ds
    show digitsToNat ('0' :: (List.replicate j '0' ++ ds)) = _
    have h1 : digitsToNat ('0' :: (List.replicate j '0' ++ ds)) =
        List.foldl (fun a c => 10 * a + (c.toNat - 48)) (10 * 0 + ('0'.toNat - 48))
          (List.replicate j '0' ++ ds) := rfl
    rw [h1]
    show List.foldl _ 0 _ = _
    exact ih ds

/-! Evaluation of the f64 conversion on serialized decimal numerals, and
the number-production round trip. -/

theorem isDigit_ne_sign {c : Char} (h : isDigitChar c = true) : c ≠ '-' ∧ c ≠ '+' := by
  constructor
  · intro heq
    subst heq
    exact absurd h (by decide)
  · intro heq
    subst heq
    exact absurd h (by decide)

theorem splitSign_no_sign {s : List Char}
    (h : ∀ c cs, s = c :: cs → c ≠ '-' ∧ c ≠ '+') : splitSign s = (false, s) := by
  cases s with
  | nil => rfl
  | cons c cs =>
    obtain ⟨h1, h2⟩ := h c cs rfl
    simp [splitSign, h1, h2]

theorem splitSign_neg (s : List Char) : splitSign ('-' :: s) = (true, s) := by
  simp [splitSign]

theorem rustParseF64_eval_int {s : List Char} {neg : Bool} {I : List Char}
    (hsplit : splitSign s = (neg, I)) (hI : ∀ c ∈ I, isDigitChar c = true) (hne : I ≠ []) :
    rustParseF64 s =
      some (mkF64 (if neg then -(digitsToNat I : Int) else (digitsToNat I : Int)) 0) := by
  unfold rustParseF64
  rw [hsplit]
  have hsplit2 := takeWhile_append_of_all I [] hI
  simp only [List.append_nil] at hsplit2
  simp only [hsplit2.1, hsplit2.2, List.takeWhile_nil, List.dropWhile_nil]
  simp [hne, digitsToNat]

theorem rustParseF64_eval_frac {s : List Char} {neg : Bool} {I F : List Char}
    (hsplit : splitSign s = (neg, I ++ '.' :: F)) (hI : ∀ c ∈ I, isDigitChar c = true)
    (hne : I ≠ []) (hF : ∀ c ∈ F, isDigitChar c = true) :
    rustParseF64 s =
      some (mkF64
        (if neg then -((digitsToNat I * 10 ^ F.length + digitsToNat F : Nat) : Int)
         else ((digitsToNat I * 10 ^ F.length + digitsToNat F : Nat) : Int))
        F.length) := by
  unfold rustParseF64
  rw [hsplit]
  have hsplit2 := scan_split (p := isDigitChar) hI
    (show ∀ c cs, '.' :: F = c :: cs → isDigitChar c = false from
      by intro c cs h; injection h with h1 _; subst h1; rfl)
  simp only [hsplit2.1, hsplit2.2]
  have hsplit3 := takeWhile_append_of_all F [] hF
  simp only [List.append_nil] at hsplit3
  simp only [reduceIte, hsplit3.1, hsplit3.2]
  simp [hne]

theorem serDecimal_parse (N k : Nat) :
    rustParseF64 (serDecimal N k) = some (mkF64 (N : Int) k) ∧
    rustParseF64 ('-' :: serDecimal N k) = some (mkF64 (-(N : Int)) k) := by
  obtain ⟨hval, hdig, hne⟩ := natToChars_spec N
  by_cases hk : k = 0
  · subst hk
    have heval : ∀ neg s, splitSign s = (neg, natToChars N) →
        rustParseF64 s = some (mkF64 (if neg then -(N : Int) else (N : Int)) 0) := by
      intro neg s hs
      rw [rustParseF64_eval_int hs hdig hne, hval]
    constructor
    · show rustParseF64 (natToChars N) = _
      rw [heval false (natToChars N)
        (splitSign_no_sign (by
          intro c cs h
          exact isDigit_ne_sign (hdig c (by rw [h]; exact List.mem_cons_self c cs))))]
      rfl
    · show rustParseF64 ('-' :: natToChars N) = _
      rw [heval true ('-' :: natToChars N) (splitSign_neg _)]
      simp
  · obtain ⟨hvalI, hdigI, hneI⟩ := natToChars_spec (N / 10 ^ k)
    obtain ⟨hvalF, hdigF, hneF⟩ := natToChars_spec (N % 10 ^ k)
    set I := natToChars (N / 10 ^ k) with hIdef
    set D := natToChars (N % 10 ^ k) with hDdef
    set F := List.replicate (k - D.length) '0' ++ D with hFdef
    have hFdig : ∀ c ∈ F, isDigitChar c = true := by
      intro c hc
      rw [hFdef, List.mem_append] at hc
      cases hc with
      | inl h => rw [List.eq_of_mem_replicate h]; rfl
      | inr h => exact hdigF c h
    have hDlen : D.length ≤ k := by
      rw [hDdef]
      exact natToChars_length_le k (N % 10 ^ k) (by omega)
        (Nat.mod_lt N (Nat.pow_pos (by omega)))
    have hFlen : F.length = k := by
      rw [hFdef]
      simp [List.length_append, List.length_replicate]
      omega
    have hFval : digitsToNat F = N % 10 ^ k := by
      rw [hFdef, digitsToNat_replicate_zero, hDdef, hvalF]
    have hser : serDecimal N k = I ++ '.' :: F := by
      unfold serDecimal
      rw [if_neg hk]
    have hM : digitsToNat I * 10 ^ F.length + digitsToNat F = N := by
      rw [hFlen, hFval, hIdef, hvalI, Nat.mul_comm]
      exact Nat.div_add_mod N (10 ^ k)
    have heval : ∀ neg s, splitSign s = (neg, I ++ '.' :: F) →
        rustParseF64 s = some (mkF64 (if neg then -(N : Int) else (N : Int)) k) := by
      intro neg s hs
      rw [rustParseF64_eval_frac hs hdigI hneI hFdig, hM, hFlen]
    constructor
    · rw [hser]
      rw [heval false (I ++ '.' :: F) (splitSign_no_sign (by
        intro c cs h
        have : c ∈ I := by
          cases hI0 : I with
          | nil => exact absurd hI0 hneI
          | cons i0 is =>
            rw [hI0] at h
            injection h with h1 _
            subst h1
            exact List.mem_cons_self _ _
        exact isDigit_ne_sign (hdigI c this)))]
      rfl
    · rw [hser]
      rw [heval true ('-' :: (I ++ '.' :: F)) (splitSign_neg _)]
      simp

theorem numChar_of_digit {c : Char} (h : isDigitChar c = true) : numChar c = true := by
  simp [numChar, h]

theorem serDecimal_all_numChar (N k : Nat) : ∀ c ∈ serDecimal N k, numChar c = true := by
  obtain ⟨_, hdig, _⟩ := natToChars_spec N
  obtain ⟨_, hdigI, _⟩ := natToChars_spec (N / 10 ^ k)
  obtain ⟨_, hdigF, _⟩ := natToChars_spec (N % 10 ^ k)
  intro c hc
  unfold serDecimal at hc
  by_cases hk : k = 0
  · rw [if_pos hk] at hc
    exact numChar_of_digit (hdig c hc)
  · rw [if_neg hk] at hc
    rw [List.mem_append] at hc
    cases hc with
    | inl h => exact numChar_of_digit (hdigI c h)
    | inr h =>
      rw [List.mem_cons] at h
      cases h with
      | inl h => subst h; rfl
      | inr h =>
        rw [List.mem_append] at h
        cases h with
        | inl h => rw [List.eq_of_mem_replicate h]; rfl
        | inr h => exact numChar_of_digit (hdigF c h)

theorem serDecimal_head (N k : Nat) : ∀ c cs, serDecimal N k = c :: cs → isDigitChar c = true := by
  obtain ⟨_, hdig, hne⟩ := natToChars_spec N
  obtain ⟨_, hdigI, hneI⟩ := natToChars_spec (N / 10 ^ k)
  intro c cs hc
  unfold serDecimal at hc
  by_cases hk : k = 0
  · rw [if_pos hk] at hc
    exact hdig c (by rw [hc]; exact List.mem_cons_self c cs)
  · rw [if_neg hk] at hc
    cases hI : natToChars (N / 10 ^ k) with
    | nil => exact absurd hI hneI
    | cons i0 is =>
      rw [hI] at hc
      injection hc with h1 _
      subst h1
      exact hdigI _ (by rw [hI]; exact List.mem_cons_self _ _)

theorem serDecimal_ne_nil (N k : Nat) : serDecimal N k ≠ [] := by
  obtain ⟨_, _, hne⟩ := natToChars_spec N
  obtain ⟨_, _, hneI⟩ := natToChars_spec (N / 10 ^ k)
  unfold serDecimal
  by_cases hk : k = 0
  · rw [if_pos hk]
    exact hne
  · rw [if_neg hk]
    intro h
    cases hI : natToChars (N / 10 ^ k) with
    | nil => exact absurd hI hneI
    | cons i0 is => rw [hI] at h; exact List.noConfusion h

/-- The number production consumes exactly a serialized finite number and
returns it unchanged, for any following input whose first character is
outside the numeric character class. -/
theorem parseNumber_ser (n : Int) (k : Nat) (rest : List Char)
    (hsmall : n.natAbs < ovfThreshold * 10 ^ k)
    (hrest : ∀ c cs, rest = c :: cs → numChar c = false) :
    parseNumber (serNum (.fin n k) ++ rest) = .ok (.num (.fin n k), rest) := by
  have hmk : mkF64 n k = JNum.fin n k := by
    unfold mkF64
    rw [if_neg (by omega)]
  have hsplit := scan_split (p := numChar) (serDecimal_all_numChar n.natAbs k) hrest
  by_cases hneg : n < 0
  · have hser : serNum (.fin n k) = '-' :: serDecimal n.natAbs k := by
      show (if n < 0 then ['-'] else []) ++ serDecimal n.natAbs k = _
      rw [if_pos hneg]
      rfl
    rw [hser]
    show parseNumber ('-' :: (serDecimal n.natAbs k ++ rest)) = _
    unfold parseNumber
    dsimp only
    rw [if_pos rfl, hsplit.1, hsplit.2, (serDecimal_parse n.natAbs k).2]
    have hcast : (-(n.natAbs : Int)) = n := by omega
    rw [hcast, hmk]
  · have hser : serNum (.fin n k) = serDecimal n.natAbs k := by
      show (if n < 0 then ['-'] else []) ++ serDecimal n.natAbs k = _
      rw [if_neg hneg]
      rfl
    rw [hser]
    cases hs : serDecimal n.natAbs k with
    | nil => exact absurd hs (serDecimal_ne_nil n.natAbs k)
    | cons c ds =>
      rw [hs] at hsplit
      have hcd : isDigitChar c = true := serDecimal_head n.natAbs k c ds hs
      have hcm : c ≠ '-' := (isDigit_ne_sign hcd).1
      show parseNumber (c :: (ds ++ rest)) = _
      unfold parseNumber
      dsimp only
      rw [if_neg hcm]
      rw [show c :: (ds ++ rest) = (c :: ds) ++ rest from rfl, hsplit.1, hsplit.2, ← hs,
        (serDecimal_parse n.natAbs k).1]
      have hcast : ((n.natAbs : Int)) = n := by omega
      rw [hcast, hmk]

/-! Round trip of the string production over the serialized escape
table. -/

theorem parseStringF_quote (f : Nat) (rest : List Char) :
    parseStringF (f + 1) ('"' :: rest) = .ok ([], rest) := rfl

theorem parseStringF_other {c : Char} (f : Nat) (rest : List Char)
    (h1 : c ≠ '"') (h2 : c ≠ '\\') :
    parseStringF (f + 1) (c :: rest) = (parseStringF f rest).map (fun p => (c :: p.1, p.2)) := by
  simp only [parseStringF, if_neg h1, if_neg h2]

theorem parseStringF_named (f : Nat) (e d : Char) (tail : List Char)
    (hd : escDecode e = some d) :
    parseStringF (f + 1) ('\\' :: e :: tail) =
      (parseStringF f tail).map (fun p => (d :: p.1, p.2)) := by
  simp only [parseStringF_backslash, hd]

theorem charFromU32_toNat (c : Char) : charFromU32 c.toNat = some c := by
  unfold charFromU32
  rw [if_pos (show c.toNat.isValidChar from c.valid), Char.ofNat_toNat]

theorem hex4_roundtrip : ∀ n, n ≤ 0x1F → fromStrRadix16 (toHex4 n) = some n := by decide

theorem parseStringF_u (f m : Nat) (code : Nat) (ch : Char) (tail : List Char)
    (hcode : fromStrRadix16 (toHex4 m) = some code) (hch : charFromU32 code = some ch) :
    parseStringF (f + 1) ('\\' :: 'u' :: (toHex4 m ++ tail)) =
      (parseStringF f tail).map (fun p => (ch :: p.1, p.2)) := by
  show parseStringF (f + 1) ('\\' :: 'u' :: hexChar (m / 4096 % 16) :: hexChar (m / 256 % 16) ::
    hexChar (m / 16 % 16) :: hexChar (m % 16) :: tail) = _
  rw [parseStringF_backslash, show escDecode 'u' = none from rfl]
  simp only [reduceIte]
  rw [show [hexChar (m / 4096 % 16), hexChar (m / 256 % 16), hexChar (m / 16 % 16),
    hexChar (m % 16)] = toHex4 m from rfl]
  simp only [hcode, hch]

theorem parseStringF_ser : ∀ (s rest : List Char) (f : Nat),
    (serStrBody s ++ '"' :: rest).length + 1 ≤ f →
    parseStringF f (serStrBody s ++ '"' :: rest) = .ok (s, rest) := by
  intro s
  induction s with
  | nil =>
    intro rest f hf
    cases f with
    | zero => simp at hf
    | succ f => exact parseStringF_quote f rest
  | cons c s ih =>
    intro rest f hf
    have hassoc : serStrBody (c :: s) ++ '"' :: rest =
        escChar c ++ (serStrBody s ++ '"' :: rest) := by
      show (escChar c ++ serStrBody s) ++ '"' :: rest = _
      rw [List.append_assoc]
    rw [hassoc] at hf ⊢
    have hnamed : ∀ e, escChar c = ['\\', e] → escDecode e = some c →
        parseStringF f (escChar c ++ (serStrBody s ++ '"' :: rest)) = .ok (c :: s, rest) := by
      intro e hesc hdec
      rw [hesc] at hf ⊢
      cases f with
      | zero => simp at hf
      | succ f =>
        show parseStringF (f + 1) ('\\' :: e :: (serStrBody s ++ '"' :: rest)) = _
        rw [parseStringF_named f e c _ hdec]
        rw [ih rest f (by
          simp only [List.length_append, List.length_cons] at hf ⊢
          omega)]
        rfl
    by_cases h1 : c = '"'
    · subst h1; exact hnamed '"' rfl rfl
    by_cases h2 : c = '\\'
    · subst h2; exact hnamed '\\' rfl rfl
    by_cases h3 : c = '/'
    · subst h3; exact hnamed '/' rfl rfl
    by_cases h4 : c = '\x08'
    · subst h4; exact hnamed 'b' rfl rfl
    by_cases h5 : c = '\x0C'
    · subst h5; exact hnamed 'f' rfl rfl
    by_cases h6 : c = '\n'
    · subst h6; exact hnamed 'n' rfl rfl
    by_cases h7 : c = '\r'
    · subst h7; exact hnamed 'r' rfl rfl
    by_cases h8 : c = '\t'
    · subst h8; exact hnamed 't' rfl rfl
    by_cases hctl : c.toNat ≤ 0x1F
    · have hesc : escChar c = '\\' :: 'u' :: toHex4 c.toNat := by
        unfold escChar
        rw [if_neg h1, if_neg h2, if_neg h3, if_neg h4, if_neg h5, if_neg h6, if_neg h7,
          if_neg h8, if_pos hctl]
      rw [hesc] at hf ⊢
      cases f with
      | zero => simp at hf
      | succ f =>
        show parseStringF (f + 1)
          ('\\' :: 'u' :: (toHex4 c.toNat ++ (serStrBody s ++ '"' :: rest))) = _
        rw [parseStringF_u f c.toNat c.toNat c _ (hex4_roundtrip c.toNat hctl)
          (charFromU32_toNat c)]
        rw [ih rest f (by
          simp only [List.length_append, List.length_cons, toHex4] at hf ⊢
          omega)]
        rfl
    · have hesc : escChar c = [c] := by
        unfold escChar
        rw [if_neg h1, if_neg h2, if_neg h3, if_neg h4, if_neg h5, if_neg h6, if_neg h7,
          if_neg h8, if_neg hctl]
      rw [hesc] at hf ⊢
      cases f with
      | zero => simp at hf
      | succ f =>
        show parseStringF (f + 1) (c :: (serStrBody s ++ '"' :: rest)) = _
        rw [parseStringF_other f _ h1 h2]
        rw [ih rest f (by
          simp only [List.length_append, List.length_cons] at hf ⊢
          omega)]
        rfl

/-! Round trip of the literal production and the dispatch helpers for the
value production. -/

theorem parseLiteral_ser (w rest : List Char)
    (hw : ∀ c ∈ w, c.isAlpha = true)
    (hrest : ∀ c cs, rest = c :: cs → c.isAlpha = false) :
    parseLiteral (w ++ rest) =
      if w = ("true".toList) then .ok (.bool true, rest)
      else if w = ("false".toList) then .ok (.bool false, rest)
      else if w = ("null".toList) then .ok (.null, rest)
      else .error (.InvalidLiteral w) := by
  have hsplit := scan_split (p := Char.isAlpha) hw hrest
  unfold parseLiteral
  rw [hsplit.1, hsplit.2]

theorem ws_false_of_digit {c : Char} (h : isDigitChar c = true) :
    rustIsWhitespace c = false := by
  have hb := of_decide_eq_true h
  simp only [rustIsWhitespace, decide_eq_false_iff_not]
  omega

theorem digit_ne {c d : Char} (h : isDigitChar c = true) (hd : isDigitChar d = false) :
    c ≠ d := by
  intro heq
  subst heq
  rw [h] at hd
  exact Bool.noConfusion hd

theorem parseValueF_digit {c : Char} (f : Nat) (tail : List Char)
    (hd : isDigitChar c = true) :
    parseValueF (f + 1) (c :: tail) = parseNumber (c :: tail) := by
  rw [parseValueF_succ, skipWs_cons_of_not_ws _ (ws_false_of_digit hd)]
  dsimp only
  rw [if_neg (digit_ne hd (by decide)), if_neg (digit_ne hd (by decide)),
    if_neg (digit_ne hd (by decide)),
    if_neg (by
      intro hor
      rcases hor with h | h | h <;> exact digit_ne hd (by decide) h),
    if_pos (Or.inl hd)]

theorem parseValueF_minus (f : Nat) (tail : List Char) :
    parseValueF (f + 1) ('-' :: tail) = parseNumber ('-' :: tail) := rfl

theorem parseValueF_t (f : Nat) (tail : List Char) :
    parseValueF (f + 1) ('t' :: tail) = parseLiteral ('t' :: tail) := rfl

theorem parseValueF_f (f : Nat) (tail : List Char) :
    parseValueF (f + 1) ('f' :: tail) = parseLiteral ('f' :: tail) := rfl

theorem parseValueF_n (f : Nat) (tail : List Char) :
    parseValueF (f + 1) ('n' :: tail) = parseLiteral ('n' :: tail) := rfl

theorem serDecimal_length_pos (N k : Nat) : 1 ≤ (serDecimal N k).length := by
  cases hs : serDecimal N k with
  | nil => exact absurd hs (serDecimal_ne_nil N k)
  | cons c ds => simp

theorem serValue_length_pos (v : Value) : 1 ≤ (serValue v).length := by
  cases v with
  | null => decide
  | bool b => cases b <;> decide
  | num j =>
    cases j with
    | nan => decide
    | inf => decide
    | neginf => decide
    | fin n k =>
      show 1 ≤ ((if n < 0 then ['-'] else []) ++ serDecimal n.natAbs k).length
      rw [List.length_append]
      have := serDecimal_length_pos n.natAbs k
      omega
  | str s =>
    show 1 ≤ ('"' :: serStrBody s ++ ['"']).length
    simp
  | arr vs =>
    show 1 ≤ ('[' :: serItems vs ++ [']']).length
    simp
  | obj ms =>
    show 1 ≤ ('\x7b' :: serMembers ms ++ ['\x7d']).length
    simp

theorem serValue_head (v : Value) : ∀ c cs, serValue v = c :: cs →
    rustIsWhitespace c = false ∧ c ≠ ']' ∧ c ≠ '\x7d' := by
  intro c cs h
  cases v with
  | null =>
    rw [show serValue .null = 'n' :: ("ull".toList) from rfl] at h
    injection h with h1 _
    subst h1
    refine ⟨by decide, by decide, by decide⟩
  | bool b =>
    cases b with
    | true =>
      rw [show serValue (.bool true) = 't' :: ("rue".toList) from rfl] at h
      injection h with h1 _
      subst h1
      refine ⟨by decide, by decide, by decide⟩
    | false =>
      rw [show serValue (.bool false) = 'f' :: ("alse".toList) from rfl] at h
      injection h with h1 _
      subst h1
      refine ⟨by decide, by decide, by decide⟩
  | num j =>
    cases j with
    | nan =>
      rw [show serValue (.num .nan) = 'n' :: ("ull".toList) from rfl] at h
      injection h with h1 _
      subst h1
      refine ⟨by decide, by decide, by decide⟩
    | inf =>
      rw [show serValue (.num .inf) = 'n' :: ("ull".toList) from rfl] at h
      injection h with h1 _
      subst h1
      refine ⟨by decide, by decide, by decide⟩
    | neginf =>
      rw [show serValue (.num .neginf) = 'n' :: ("ull".toList) from rfl] at h
      injection h with h1 _
      subst h1
      refine ⟨by decide, by decide, by decide⟩
    | fin n k =>
      rw [show serValue (.num (.fin n k)) =
        (if n < 0 then ['-'] else []) ++ serDecimal n.natAbs k from rfl] at h
      by_cases hneg : n < 0
      · rw [if_pos hneg] at h
        injection h with h1 _
        subst h1
        refine ⟨by decide, by decide, by decide⟩
      · rw [if_neg hneg, List.nil_append] at h
        have hcd := serDecimal_head n.natAbs k c cs h
        exact ⟨ws_false_of_digit hcd, digit_ne hcd (by decide), digit_ne hcd (by decide)⟩
  | str s =>
    rw [show serValue (.str s) = '"' :: (serStrBody s ++ ['"']) from rfl] at h
    injection h with h1 _
    subst h1
    refine ⟨by decide, by decide, by decide⟩
  | arr vs =>
    rw [show serValue (.arr vs) = '[' :: (serItems vs ++ [']']) from rfl] at h
    injection h with h1 _
    subst h1
    refine ⟨by decide, by decide, by decide⟩
  | obj ms =>
    rw [show serValue (.obj ms) = '\x7b' :: (serMembers ms ++ ['\x7d']) from rfl] at h
    injection h with h1 _
    subst h1
    refine ⟨by decide, by decide, by decide⟩

theorem insertAssoc_append (m : List (List Char × Value)) (k : List Char) (v : Value)
    (h : ∀ q ∈ m, q.1 ≠ k) : insertAssoc m k v = m ++ [(k, v)] := by
  induction m with
  | nil => rfl
  | cons p rest ih =>
    obtain ⟨k0, v0⟩ := p
    have hk0 : k0 ≠ k := h (k0, v0) (List.mem_cons_self _ _)
    show (if k0 = k then _ else _) = _
    rw [if_neg hk0, ih (fun q hq => h q (List.mem_cons_of_mem _ hq))]
    rfl

theorem parseArrayF_succ (f : Nat) (s : List Char) :
    parseArrayF (f + 1) s =
      match skipWs s with
      | [] => arrayLoopF f [] []
      | c :: rest =>
        if c = ']' then .ok (.arr [], rest)
        else arrayLoopF f [] (c :: rest) := rfl

theorem parseObjectF_succ (f : Nat) (s : List Char) :
    parseObjectF (f + 1) s =
      match skipWs s with
      | [] => objLoopF f [] []
      | c :: rest =>
        if c = '\x7d' then .ok (.obj [], rest)
        else objLoopF f [] (c :: rest) := rfl

theorem serItems_cons (v0 : Value) (vs : List Value) :
    serItems (v0 :: vs) = serValue v0 ++
      (match vs with
       | [] => []
       | _ :: _ => ',' :: serItems vs) := by
  cases vs with
  | nil => simp [serItems]
  | cons v1 vs' => rfl

theorem serItems_ne_nil (v0 : Value) (vs : List Value) : serItems (v0 :: vs) ≠ [] := by
  rw [serItems_cons]
  intro h
  rw [List.append_eq_nil] at h
  have := serValue_length_pos v0
  rw [h.1] at this
  simp at this

theorem serItems_head (v0 : Value) (vs : List Value) : ∀ c cs,
    serItems (v0 :: vs) = c :: cs →
    rustIsWhitespace c = false ∧ c ≠ ']' ∧ c ≠ '\x7d' := by
  intro c cs h
  rw [serItems_cons] at h
  cases hs0 : serValue v0 with
  | nil =>
    have := serValue_length_pos v0
    rw [hs0] at this
    simp at this
  | cons d ds =>
    rw [hs0] at h
    injection h with h1 _
    subst h1
    exact serValue_head v0 d ds hs0

theorem serMembers_cons (k0 : List Char) (w0 : Value) (ms : List (List Char × Value)) :
    serMembers ((k0, w0) :: ms) = ('"' :: serStrBody k0 ++ '"' :: ':' :: serValue w0) ++
      (match ms with
       | [] => []
       | _ :: _ => ',' :: serMembers ms) := by
  cases ms with
  | nil => simp [serMembers]
  | cons m1 ms' => rfl

theorem serMembers_head (k0 : List Char) (w0 : Value) (ms : List (List Char × Value)) :
    ∃ tail, serMembers ((k0, w0) :: ms) = '"' :: tail := by
  cases ms with
  | nil => exact ⟨serStrBody k0 ++ '"' :: ':' :: serValue w0, rfl⟩
  | cons m1 ms2 =>
    refine ⟨serStrBody k0 ++ '"' :: ':' :: serValue w0 ++ ',' :: serMembers (m1 :: ms2), ?_⟩
    show ('"' :: serStrBody k0 ++ '"' :: ':' :: serValue w0) ++ ',' :: serMembers (m1 :: ms2) = _
    simp

/-- Round trip of the whole value production: parsing a serialized good
Value, followed by any separator-headed remainder, consumes exactly the
serialized text and returns the Value unchanged. -/
theorem parse_serValue : ∀ n (v : Value), sizeOf v ≤ n →
    ∀ (rest : List Char) (f : Nat), goodVal v = true → sepHead rest →
    3 * (serValue v ++ rest).length + 4 ≤ f →
    parseValueF f (serValue v ++ rest) = .ok (v, rest) := by
  intro n
  induction n using Nat.strong_induction_on with
  | _ n ih =>
    intro v hsize rest f hgood hsep hf
    cases v with
    | null =>
      cases f with
      | zero => exact absurd hf (by omega)
      | succ f1 =>
        show parseValueF (f1 + 1) ('n' :: ("ull".toList ++ rest)) = _
        rw [parseValueF_n]
        show parseLiteral (("null".toList) ++ rest) = _
        rw [parseLiteral_ser _ rest (by decide) (fun c cs h => (hsep c cs h).2)]
        rw [if_neg (by decide), if_neg (by decide), if_pos rfl]
    | bool b =>
      cases f with
      | zero => exact absurd hf (by omega)
      | succ f1 =>
        cases b with
        | true =>
          show parseValueF (f1 + 1) ('t' :: ("rue".toList ++ rest)) = _
          rw [parseValueF_t]
          show parseLiteral (("true".toList) ++ rest) = _
          rw [parseLiteral_ser _ rest (by decide) (fun c cs h => (hsep c cs h).2)]
          rw [if_pos rfl]
        | false =>
          show parseValueF (f1 + 1) ('f' :: ("alse".toList ++ rest)) = _
          rw [parseValueF_f]
          show parseLiteral (("false".toList) ++ rest) = _
          rw [parseLiteral_ser _ rest (by decide) (fun c cs h => (hsep c cs h).2)]
          rw [if_neg (by decide), if_pos rfl]
    | num j =>
      cases j with
      | nan => exact absurd hgood (by decide)
      | inf => exact absurd hgood (by decide)
      | neginf => exact absurd hgood (by decide)
      | fin nn k =>
        have hsmall : nn.natAbs < ovfThreshold * 10 ^ k :=
          of_decide_eq_true
            (show decide (nn.natAbs < ovfThreshold * 10 ^ k) = true from hgood)
        by_cases hneg : nn < 0
        · have hser : serValue (.num (.fin nn k)) ++ rest =
              '-' :: (serDecimal nn.natAbs k ++ rest) := by
            show ((if nn < 0 then ['-'] else []) ++ serDecimal nn.natAbs k) ++ rest = _
            rw [if_pos hneg]
            simp
          rw [hser] at hf ⊢
          cases f with
          | zero => exact absurd hf (by omega)
          | succ f1 =>
            rw [parseValueF_minus]
            have hback : '-' :: (serDecimal nn.natAbs k ++ rest) =
                serNum (.fin nn k) ++ rest := by
              show _ = ((if nn < 0 then ['-'] else []) ++ serDecimal nn.natAbs k) ++ rest
              rw [if_pos hneg]
              simp
            rw [hback, parseNumber_ser nn k rest hsmall (fun c cs h => (hsep c cs h).1)]
        · have hser : serValue (.num (.fin nn k)) ++ rest = serDecimal nn.natAbs k ++ rest := by
            show ((if nn < 0 then ['-'] else []) ++ serDecimal nn.natAbs k) ++ rest = _
            rw [if_neg hneg]
            simp
          rw [hser] at hf ⊢
          cases hs : serDecimal nn.natAbs k with
          | nil => exact absurd hs (serDecimal_ne_nil _ _)
          | cons c0 ds =>
            show parseValueF f (c0 :: (ds ++ rest)) = _
            cases f with
            | zero => exact absurd hf (by omega)
            | succ f1 =>
              rw [parseValueF_digit f1 _ (serDecimal_head nn.natAbs k c0 ds hs)]
              have hback : c0 :: (ds ++ rest) = serNum (.fin nn k) ++ rest := by
                show _ = ((if nn < 0 then ['-'] else []) ++ serDecimal nn.natAbs k) ++ rest
                rw [if_neg hneg, hs]
                simp
              rw [hback, parseNumber_ser nn k rest hsmall (fun c cs h => (hsep c cs h).1)]
    | str s =>
      have hshape : serValue (.str s) ++ rest = '"' :: (serStrBody s ++ '"' :: rest) := by
        show ('"' :: serStrBody s ++ ['"']) ++ rest = _
        simp
      rw [hshape] at hf ⊢
      cases f with
      | zero => exact absurd hf (by omega)
      | succ f1 =>
        rw [parseValueF_quote, parseStringF_ser s rest _ (le_refl _)]
        rfl
    | arr vs =>
      have hsz : ∀ u ∈ vs, sizeOf u < n := by
        intro u hu
        have h1 := List.sizeOf_lt_of_mem hu
        have h2 : sizeOf (Value.arr vs) = 1 + sizeOf vs := by simp
        omega
      have hgl : goodList vs = true := hgood
      have loop : ∀ (l : List Value), l ≠ [] → (∀ u ∈ l, sizeOf u < n) →
          goodList l = true →
          ∀ (acc : List Value) (rr : List Char) (g : Nat), sepHead rr →
          3 * (serItems l ++ ']' :: rr).length + 5 ≤ g →
          arrayLoopF g acc (serItems l ++ ']' :: rr) = .ok (.arr (acc ++ l), rr) := by
        intro l
        induction l with
        | nil => intro hne; exact absurd rfl hne
        | cons v0 l2 ihl =>
          intro _ hszl hgll acc rr g hsepr hg
          have hgpair : goodVal v0 = true ∧ goodList l2 = true := by
            have h := hgll
            simp only [goodList, Bool.and_eq_true] at h
            exact h
          have hgv0 : goodVal v0 = true := hgpair.1
          have hgl2 : goodList l2 = true := hgpair.2
          obtain ⟨g1, rfl⟩ : ∃ g1, g = g1 + 1 := ⟨g - 1, by omega⟩
          cases l2 with
          | nil =>
            have hit : serItems [v0] ++ ']' :: rr = serValue v0 ++ ']' :: rr := rfl
            rw [hit] at hg ⊢
            have hv0 := ih (sizeOf v0) (hszl v0 (List.mem_cons_self _ _)) v0 le_rfl
              (']' :: rr) g1 hgv0
              (by intro c cs h; injection h with h1 _; subst h1; exact ⟨by decide, by decide⟩)
              (by omega)
            rw [arrayLoopF_succ, hv0]
            dsimp only
            rw [skipWs_cons_of_not_ws _ (by decide)]
            dsimp only
            simp only [reduceIte]
          | cons v1 l3 =>
            have hit : serItems (v0 :: v1 :: l3) ++ ']' :: rr =
                serValue v0 ++ (',' :: (serItems (v1 :: l3) ++ ']' :: rr)) := by
              show (serValue v0 ++ ',' :: serItems (v1 :: l3)) ++ ']' :: rr = _
              simp
            rw [hit] at hg ⊢
            have hv0 := ih (sizeOf v0) (hszl v0 (List.mem_cons_self _ _)) v0 le_rfl
              (',' :: (serItems (v1 :: l3) ++ ']' :: rr)) g1 hgv0
              (by intro c cs h; injection h with h1 _; subst h1; exact ⟨by decide, by decide⟩)
              (by omega)
            rw [arrayLoopF_succ, hv0]
            dsimp only
            rw [skipWs_cons_of_not_ws _ (by decide)]
            dsimp only
            rw [if_neg (by decide), if_pos rfl]
            have hlen : (serValue v0 ++ (',' :: (serItems (v1 :: l3) ++ ']' :: rr))).length =
                (serValue v0).length + ((serItems (v1 :: l3) ++ ']' :: rr).length + 1) := by
              simp
            have hpos := serValue_length_pos v0
            rw [ihl (by simp) (fun u hu => hszl u (List.mem_cons_of_mem _ hu)) hgl2
              (acc ++ [v0]) rr g1 hsepr (by omega)]
            simp
      have hshape : serValue (.arr vs) ++ rest = '[' :: (serItems vs ++ ']' :: rest) := by
        show ('[' :: serItems vs ++ [']']) ++ rest = _
        simp
      rw [hshape] at hf ⊢
      cases f with
      | zero => exact absurd hf (by omega)
      | succ f1 =>
        rw [parseValueF_lbrack]
        cases f1 with
        | zero => exact absurd hf (by omega)
        | succ f2 =>
          rw [parseArrayF_succ]
          cases vs with
          | nil =>
            rw [show serItems ([] : List Value) ++ ']' :: rest = ']' :: rest from rfl]
            rw [skipWs_cons_of_not_ws _ (by decide)]
            dsimp only
            simp only [reduceIte]
          | cons v0 vs2 =>
            cases hsi : serItems (v0 :: vs2) with
            | nil => exact absurd hsi (serItems_ne_nil v0 vs2)
            | cons c0 cs0 =>
              obtain ⟨hws0, hne1, _⟩ := serItems_head v0 vs2 c0 cs0 hsi
              show (match skipWs (c0 :: (cs0 ++ ']' :: rest)) with
                | [] => arrayLoopF f2 [] []
                | c :: r =>
                  if c = ']' then .ok (.arr [], r)
                  else arrayLoopF f2 [] (c :: r)) = _
              rw [skipWs_cons_of_not_ws _ hws0]
              dsimp only
              rw [if_neg hne1]
              have hback : c0 :: (cs0 ++ ']' :: rest) =
                  serItems (v0 :: vs2) ++ ']' :: rest := by
                rw [hsi]
                rfl
              rw [hback]
              have hlen2 : (('[' : Char) :: (serItems (v0 :: vs2) ++ ']' :: rest)).length =
                  (serItems (v0 :: vs2) ++ ']' :: rest).length + 1 := by
                simp
              rw [loop (v0 :: vs2) (by simp) hsz hgl [] rest f2 hsep (by omega)]
              rfl
    | obj ms =>
      have hsz : ∀ p ∈ ms, sizeOf p.2 < n := by
        intro p hp
        have h1 := List.sizeOf_lt_of_mem hp
        have h2 : sizeOf (Value.obj ms) = 1 + sizeOf ms := by simp
        have h3 : sizeOf p.2 < sizeOf p := by
          obtain ⟨a, b⟩ := p
          show sizeOf b < sizeOf (a, b)
          have hab : sizeOf (a, b) = 1 + sizeOf a + sizeOf b := rfl
          omega
        omega
      have hgpair : distinctKeys ms = true ∧ goodMembers ms = true := by
        have h := hgood
        simp only [goodVal, Bool.and_eq_true] at h
        exact h
      have hdk : distinctKeys ms = true := hgpair.1
      have hgm : goodMembers ms = true := hgpair.2
      have loopO : ∀ (l : List (List Char × Value)), l ≠ [] →
          (∀ p ∈ l, sizeOf p.2 < n) → goodMembers l = true → distinctKeys l = true →
          ∀ (done : List (List Char × Value)) (rr : List Char) (g : Nat), sepHead rr →
          (∀ p ∈ l, ∀ q ∈ done, q.1 ≠ p.1) →
          3 * (serMembers l ++ '\x7d' :: rr).length + 5 ≤ g →
          objLoopF g done (serMembers l ++ '\x7d' :: rr) = .ok (.obj (done ++ l), rr) := by
        intro l
        induction l with
        | nil => intro hne; exact absurd rfl hne
        | cons p0 l2 ihl =>
          obtain ⟨k0, w0⟩ := p0
          intro _ hszl hgml hdkl done rr g hsepr hfresh hg
          have hgmp : goodVal w0 = true ∧ goodMembers l2 = true := by
            have h := hgml
            simp only [goodMembers, Bool.and_eq_true] at h
            exact h
          have hgw0 : goodVal w0 = true := hgmp.1
          have hgm2 : goodMembers l2 = true := hgmp.2
          have hdkp : l2.all (fun p => p.1 ≠ k0) = true ∧ distinctKeys l2 = true := by
            have h := hdkl
            simp only [distinctKeys, Bool.and_eq_true] at h
            exact h
          have hdkA : l2.all (fun p => p.1 ≠ k0) = true := hdkp.1
          have hdk2 : distinctKeys l2 = true := hdkp.2
          have hfresh0 : ∀ q ∈ done, q.1 ≠ k0 :=
            fun q hq => hfresh (k0, w0) (List.mem_cons_self _ _) q hq
          have hins : insertAssoc done k0 w0 = done ++ [(k0, w0)] :=
            insertAssoc_append done k0 w0 hfresh0
          obtain ⟨g1, rfl⟩ : ∃ g1, g = g1 + 1 := ⟨g - 1, by omega⟩
          cases l2 with
          | nil =>
            have hit : serMembers [(k0, w0)] ++ '\x7d' :: rr =
                '"' :: ((serStrBody k0 ++ '"' :: (':' :: (serValue w0 ++ '\x7d' :: rr)))) := by
              show ('"' :: serStrBody k0 ++ '"' :: ':' :: serValue w0) ++ '\x7d' :: rr = _
              simp
            rw [hit] at hg ⊢
            obtain ⟨g2, rfl⟩ : ∃ g2, g1 = g2 + 1 := ⟨g1 - 1, by
              have := serValue_length_pos w0
              simp only [List.length_cons, List.length_append] at hg
              omega⟩
            rw [objLoopF_succ, parseValueF_quote,
              parseStringF_ser k0 (':' :: (serValue w0 ++ '\x7d' :: rr)) _ (le_refl _)]
            dsimp only [Except.map]
            rw [skipWs_cons_of_not_ws _ (by decide)]
            dsimp only
            simp only [reduceIte]
            have hw0 := ih (sizeOf w0) (hszl (k0, w0) (List.mem_cons_self _ _)) w0 le_rfl
              ('\x7d' :: rr) (g2 + 1) hgw0
              (by intro c cs h; injection h with h1 _; subst h1; exact ⟨by decide, by decide⟩)
              (by simp only [List.length_cons, List.length_append] at hg ⊢; omega)
            rw [hw0]
            dsimp only
            rw [skipWs_cons_of_not_ws _ (by decide)]
            dsimp only
            simp only [reduceIte]
            rw [hins]
          | cons p1 l3 =>
            have hit : serMembers ((k0, w0) :: p1 :: l3) ++ '\x7d' :: rr =
                '"' :: ((serStrBody k0 ++ '"' :: (':' :: (serValue w0 ++
                  ',' :: (serMembers (p1 :: l3) ++ '\x7d' :: rr))))) := by
              show (('"' :: serStrBody k0 ++ '"' :: ':' :: serValue w0) ++
                ',' :: serMembers (p1 :: l3)) ++ '\x7d' :: rr = _
              simp
            rw [hit] at hg ⊢
            obtain ⟨g2, rfl⟩ : ∃ g2, g1 = g2 + 1 := ⟨g1 - 1, by
              have := serValue_length_pos w0
              simp only [List.length_cons, List.length_append] at hg
              omega⟩
            rw [objLoopF_succ, parseValueF_quote,
              parseStringF_ser k0 (':' :: (serValue w0 ++
                ',' :: (serMembers (p1 :: l3) ++ '\x7d' :: rr))) _ (le_refl _)]
            dsimp only [Except.map]
            rw [skipWs_cons_of_not_ws _ (by decide)]
            dsimp only
            simp only [reduceIte]
            have hw0 := ih (sizeOf w0) (hszl (k0, w0) (List.mem_cons_self _ _)) w0 le_rfl
              (',' :: (serMembers (p1 :: l3) ++ '\x7d' :: rr)) (g2 + 1) hgw0
              (by intro c cs h; injection h with h1 _; subst h1; exact ⟨by decide, by decide⟩)
              (by simp only [List.length_cons, List.length_append] at hg ⊢; omega)
            rw [hw0]
            dsimp only
            rw [skipWs_cons_of_not_ws _ (by decide)]
            dsimp only
            rw [if_neg (by decide), if_pos rfl, hins]
            have hfresh2 : ∀ p ∈ p1 :: l3, ∀ q ∈ done ++ [(k0, w0)], q.1 ≠ p.1 := by
              intro p hp q hq
              rw [List.mem_append] at hq
              cases hq with
              | inl hq => exact hfresh p (List.mem_cons_of_mem _ hp) q hq
              | inr hq =>
                rw [List.mem_singleton] at hq
                subst hq
                have := List.all_eq_true.mp hdkA p hp
                intro heq
                exact (show p.1 ≠ k0 by simpa using this) heq.symm
            have hpos := serValue_length_pos w0
            rw [ihl (by simp) (fun p hp => hszl p (List.mem_cons_of_mem _ hp)) hgm2 hdk2
              (done ++ [(k0, w0)]) rr (g2 + 1) hsepr hfresh2
              (by simp only [List.length_cons, List.length_append] at hg ⊢; omega)]
            simp
      have hshape : serValue (.obj ms) ++ rest = '\x7b' :: (serMembers ms ++ '\x7d' :: rest) := by
        show ('\x7b' :: serMembers ms ++ ['\x7d']) ++ rest = _
        simp
      rw [hshape] at hf ⊢
      cases f with
      | zero => exact absurd hf (by omega)
      | succ f1 =>
        rw [parseValueF_lbrace]
        cases f1 with
        | zero => exact absurd hf (by omega)
        | succ f2 =>
          rw [parseObjectF_succ]
          cases ms with
          | nil =>
            rw [show serMembers ([] : List (List Char × Value)) ++ '\x7d' :: rest =
              '\x7d' :: rest from rfl]
            rw [skipWs_cons_of_not_ws _ (by decide)]
            dsimp only
            simp only [reduceIte]
          | cons m0 ms2 =>
            obtain ⟨km, wm⟩ := m0
            obtain ⟨tl, htl⟩ := serMembers_head km wm ms2
            rw [htl]
            show (match skipWs ('"' :: (tl ++ '\x7d' :: rest)) with
              | [] => objLoopF f2 [] []
              | c :: r =>
                if c = '\x7d' then .ok (.obj [], r)
                else objLoopF f2 [] (c :: r)) = _
            rw [skipWs_cons_of_not_ws _ (by decide)]
            dsimp only
            rw [if_neg (by decide)]
            have hback : ('"' : Char) :: (tl ++ '\x7d' :: rest) =
                serMembers ((km, wm) :: ms2) ++ '\x7d' :: rest := by
              rw [htl]
              rfl
            rw [hback]
            rw [loopO ((km, wm) :: ms2) (by simp) hsz hgm hdk [] rest f2 hsep
              (by intro p hp q hq; simp at hq)
              (by simp only [List.length_cons, List.length_append] at hf ⊢; omega)]
            rfl

theorem lookupAssoc_of_distinct (ms : List (List Char × Value)) (k : List Char) (v : Value)
    (hdk : distinctKeys ms = true) (hmem : (k, v) ∈ ms) :
    lookupAssoc ms k = some v := by
  induction ms with
  | nil => cases hmem
  | cons p rest ih =>
    obtain ⟨k0, v0⟩ := p
    simp only [distinctKeys, Bool.and_eq_true] at hdk
    rw [List.mem_cons] at hmem
    cases hmem with
    | inl h =>
      injection h with h1 h2
      subst h1
      subst h2
      simp [lookupAssoc]
    | inr h =>
      by_cases hk : k0 = k
      · subst hk
        have := List.all_eq_true.mp hdk.1 (k0, v) h
        simp at this
      · simp only [lookupAssoc, if_neg hk]
        exact ih hdk.2 h

theorem goodMembers_mem (ms : List (List Char × Value)) (p : List Char × Value)
    (hg : goodMembers ms = true) (hp : p ∈ ms) : goodVal p.2 = true := by
  induction ms with
  | nil => cases hp
  | cons q rest ih =>
    obtain ⟨k0, v0⟩ := q
    simp only [goodMembers, Bool.and_eq_true] at hg
    rw [List.mem_cons] at hp
    cases hp with
    | inl h => subst h; exact hg.1
    | inr h => exact ih hg.2 h

/-- Structural equality is reflexive on values whose numbers are all
finite, the model of v == v holding for NaN-free values. -/
theorem structEq_refl : ∀ n (v : Value), sizeOf v ≤ n → goodVal v = true →
    structEq v v = true := by
  intro n
  induction n using Nat.strong_induction_on with
  | _ n ih =>
    intro v hsz hgood
    cases v with
    | null => rfl
    | bool b => simp [structEq]
    | num j =>
      cases j with
      | fin a b => simp [structEq, numEqB]
      | nan => exact absurd hgood (by simp [goodVal, finiteNum])
      | inf => exact absurd hgood (by simp [goodVal, finiteNum])
      | neginf => exact absurd hgood (by simp [goodVal, finiteNum])
    | str s => simp [structEq]
    | arr vs =>
      have h2 : sizeOf (Value.arr vs) = 1 + sizeOf vs := by simp
      have hlist : ∀ l, (∀ v ∈ l, sizeOf v < n) → goodList l = true →
          structEqList l l = true := by
        intro l
        induction l with
        | nil => intro _ _; rfl
        | cons a rest ihl =>
          intro hszl hgl
          simp only [goodList, Bool.and_eq_true] at hgl
          simp only [structEqList, Bool.and_eq_true]
          refine ⟨ih (sizeOf a) (hszl a (List.mem_cons_self _ _)) a le_rfl hgl.1, ?_⟩
          exact ihl (fun v hv => hszl v (List.mem_cons_of_mem _ hv)) hgl.2
      show structEqList vs vs = true
      refine hlist vs (fun v hv => ?_) hgood
      have h1 := List.sizeOf_lt_of_mem hv
      omega
    | obj ms =>
      have h2 : sizeOf (Value.obj ms) = 1 + sizeOf ms := by simp
      simp only [goodVal, Bool.and_eq_true] at hgood
      obtain ⟨hdk, hgm⟩ := hgood
      have hsubs : ∀ sub, (∀ p ∈ sub, p ∈ ms) → objSubset sub ms = true := by
        intro sub
        induction sub with
        | nil => intro _; rfl
        | cons p rest ihs =>
          intro hmem
          obtain ⟨k0, v0⟩ := p
          have hm : (k0, v0) ∈ ms := hmem _ (List.mem_cons_self _ _)
          have hlk := lookupAssoc_of_distinct ms k0 v0 hdk hm
          rw [show objSubset ((k0, v0) :: rest) ms =
            ((match lookupAssoc ms k0 with
              | some w => structEq v0 w
              | none => false) && objSubset rest ms) from rfl, hlk]
          show (structEq v0 v0 && objSubset rest ms) = true
          rw [Bool.and_eq_true]
          have hszv : sizeOf v0 < n := by
            have h1 := List.sizeOf_lt_of_mem hm
            have h3 : sizeOf ((k0, v0) : List Char × Value) =
              1 + sizeOf k0 + sizeOf v0 := rfl
            omega
          refine ⟨ih (sizeOf v0) hszv v0 le_rfl
            (goodMembers_mem ms (k0, v0) hgm hm), ?_⟩
          exact ihs (fun q hq => hmem q (List.mem_cons_of_mem _ hq))
      show (ms.length == ms.length && objSubset ms ms) = true
      rw [Bool.and_eq_true]
      exact ⟨by simp, hsubs ms (fun p hp => hp)⟩

/-- C1: for every Value v containing no non-finite number (and, as the
HashMap representation guarantees, no repeated object key), parsing the
serialized text succeeds and the result is structurally equal to v -- the
round-trip law parse(serialize(v)) = Ok(v) under the derived PartialEq,
which compares objects as maps and arrays in order. -/
theorem c1_round_trip (v : Value) (hgood : goodVal v = true) :
    ∃ w, fromStr (serValue v) = .ok w ∧ structEq v w = true := by
  refine ⟨v, ?_, structEq_refl (sizeOf v) v le_rfl hgood⟩
  have hp : parseValueF (3 * (serValue v).length + 4) (serValue v) = .ok (v, []) := by
    have h := parse_serValue (sizeOf v) v le_rfl [] (3 * (serValue v ++ []).length + 4)
      hgood (by intro c cs h; cases h) le_rfl
    rw [List.append_nil] at h
    exact h
  rw [show fromStr (serValue v) =
    (match parseValueF (3 * (serValue v).length + 4) (serValue v) with
     | .error e => .error e
     | .ok (w, rest) => if skipWs rest = [] then .ok w
        else .error .TrailingCharacters) from rfl, hp]
  rfl

theorem c1_round_trip_witness :
    goodVal (.obj [(("a".toList), .num (.fin 25 1))]) = true ∧
    ∃ w, fromStr (serValue (.obj [(("a".toList), .num (.fin 25 1))])) = .ok w ∧
      structEq (.obj [(("a".toList), .num (.fin 25 1))]) w = true :=
  ⟨by decide, c1_round_trip (.obj [(("a".toList), .num (.fin 25 1))]) (by decide)⟩

theorem goodList_append (a b : List Value) (ha : goodList a = true)
    (hb : goodList b = true) : goodList (a ++ b) = true := by
  induction a with
  | nil => simpa using hb
  | cons v rest ih =>
    simp only [goodList, Bool.and_eq_true] at ha
    show (goodVal v && goodList (rest ++ b)) = true
    rw [Bool.and_eq_true]
    exact ⟨ha.1, ih ha.2⟩

theorem insertAssoc_all_keys (m : List (List Char × Value)) (k : List Char) (v : Value)
    (Q : List Char → Bool) (hm : m.all (fun p => Q p.1) = true) (hk : Q k = true) :
    (insertAssoc m k v).all (fun p => Q p.1) = true := by
  induction m with
  | nil => simp [insertAssoc, hk]
  | cons p rest ih =>
    obtain ⟨k0, v0⟩ := p
    simp only [List.all_cons, Bool.and_eq_true] at hm
    by_cases hkk : k0 = k
    · simp only [insertAssoc, if_pos hkk, List.all_cons, Bool.and_eq_true]
      exact ⟨hm.1, hm.2⟩
    · simp only [insertAssoc, if_neg hkk, List.all_cons, Bool.and_eq_true]
      exact ⟨hm.1, ih hm.2⟩

theorem insertAssoc_distinct (m : List (List Char × Value)) (k : List Char) (v : Value)
    (h : distinctKeys m = true) : distinctKeys (insertAssoc m k v) = true := by
  induction m with
  | nil => simp [insertAssoc, distinctKeys]
  | cons p rest ih =>
    obtain ⟨k0, v0⟩ := p
    simp only [distinctKeys, Bool.and_eq_true] at h
    by_cases hkk : k0 = k
    · simp only [insertAssoc, if_pos hkk, distinctKeys, Bool.and_eq_true]
      exact ⟨h.1, h.2⟩
    · simp only [insertAssoc, if_neg hkk, distinctKeys, Bool.and_eq_true]
      refine ⟨?_, ih h.2⟩
      refine insertAssoc_all_keys rest k v (fun x => x ≠ k0) h.1 ?_
      simp
      exact fun he => hkk he.symm

theorem insertAssoc_goodMembers (m : List (List Char × Value)) (k : List Char) (v : Value)
    (hg : goodMembers m = true) (hv : goodVal v = true) :
    goodMembers (insertAssoc m k v) = true := by
  induction m with
  | nil => simp [insertAssoc, goodMembers, hv]
  | cons p rest ih =>
    obtain ⟨k0, v0⟩ := p
    simp only [goodMembers, Bool.and_eq_true] at hg
    by_cases hkk : k0 = k
    · simp only [insertAssoc, if_pos hkk, goodMembers, Bool.and_eq_true]
      exact ⟨hv, hg.2⟩
    · simp only [insertAssoc, if_neg hkk, goodMembers, Bool.and_eq_true]
      exact ⟨hg.1, ih hg.2⟩

theorem okList_append (a b : List Value) (ha : okList a = true)
    (hb : okList b = true) : okList (a ++ b) = true := by
  induction a with
  | nil => simpa using hb
  | cons v rest ih =>
    simp only [okList, Bool.and_eq_true] at ha
    show (okVal v && okList (rest ++ b)) = true
    rw [Bool.and_eq_true]
    exact ⟨ha.1, ih ha.2⟩

theorem insertAssoc_okMembers (m : List (List Char × Value)) (k : List Char) (v : Value)
    (hg : okMembers m = true) (hv : okVal v = true) :
    okMembers (insertAssoc m k v) = true := by
  induction m with
  | nil => simp [insertAssoc, okMembers, hv]
  | cons p rest ih =>
    obtain ⟨k0, v0⟩ := p
    simp only [okMembers, Bool.and_eq_true] at hg
    by_cases hkk : k0 = k
    · simp only [insertAssoc, if_pos hkk, okMembers, Bool.and_eq_true]
      exact ⟨hv, hg.2⟩
    · simp only [insertAssoc, if_neg hkk, okMembers, Bool.and_eq_true]
      exact ⟨hg.1, ih hg.2⟩

theorem mkF64_ok (n : Int) (k : Nat) : okNum (mkF64 n k) = true := by
  unfold mkF64
  by_cases h : ovfThreshold * 10 ^ k ≤ n.natAbs
  · rw [if_pos h]
    by_cases hn : n < 0
    · rw [if_pos hn]
      rfl
    · rw [if_neg hn]
      rfl
  · rw [if_neg h]
    show decide (n.natAbs < ovfThreshold * 10 ^ k) = true
    exact decide_eq_true (by omega)

theorem rustParseF64_ok (s : List Char) (j : JNum) (h : rustParseF64 s = some j) :
    okNum j = true := by
  simp only [rustParseF64] at h
  split at h
  · exact absurd h (by simp)
  · split at h
    · injection h with h1
      subst h1
      exact mkF64_ok _ _
    · split at h
      · split at h
        · exact absurd h (by simp)
        · split at h
          · injection h with h1
            subst h1
            exact mkF64_ok _ _
          · injection h with h1
            subst h1
            exact mkF64_ok _ _
      · exact absurd h (by simp)

theorem parseNumber_ok (s : List Char) (v : Value) (r : List Char)
    (h : parseNumber s = .ok (v, r)) : okVal v = true := by
  simp only [parseNumber] at h
  split at h
  · rename_i j hj
    injection h with h1
    injection h1 with h2 h3
    subst h2
    exact rustParseF64_ok _ j hj
  · exact absurd h (by simp)

theorem parseLiteral_ok (s : List Char) (v : Value) (r : List Char)
    (h : parseLiteral s = .ok (v, r)) : okVal v = true := by
  simp only [parseLiteral] at h
  split at h
  · injection h with h1
    injection h1 with h2 h3
    subst h2
    rfl
  · split at h
    · injection h with h1
      injection h1 with h2 h3
      subst h2
      rfl
    · split at h
      · injection h with h1
        injection h1 with h2 h3
        subst h2
        rfl
      · exact absurd h (by simp)

/-- Invariant of the parser: every value a successful parse produces has
distinct keys in every object (objects are built by HashMap insertion)
and every number a possible f64-conversion result: finite below the
overflow threshold, or an infinity from overflowing numeric text. -/
theorem parse_okInv : ∀ f,
    (∀ s v r, parseValueF f s = .ok (v, r) → okVal v = true) ∧
    (∀ s v r, parseArrayF f s = .ok (v, r) → okVal v = true) ∧
    (∀ acc s v r, okList acc = true → arrayLoopF f acc s = .ok (v, r) →
      okVal v = true) ∧
    (∀ s v r, parseObjectF f s = .ok (v, r) → okVal v = true) ∧
    (∀ m s v r, distinctKeys m = true → okMembers m = true →
      objLoopF f m s = .ok (v, r) → okVal v = true) := by
  intro f
  induction f with
  | zero =>
    refine ⟨?_, ?_, ?_, ?_, ?_⟩
    · intro s v r h
      exact Except.noConfusion h
    · intro s v r h
      exact Except.noConfusion h
    · intro acc s v r _ h
      exact Except.noConfusion h
    · intro s v r h
      exact Except.noConfusion h
    · intro m s v r _ _ h
      exact Except.noConfusion h
  | succ f ih =>
    obtain ⟨ihv, iha, ihal, iho, ihol⟩ := ih
    refine ⟨?_, ?_, ?_, ?_, ?_⟩
    · intro s v r h
      rw [parseValueF_succ] at h
      cases hsw : skipWs s with
      | nil =>
        rw [hsw] at h
        exact absurd h (by simp)
      | cons c rest =>
        rw [hsw] at h
        dsimp only at h
        by_cases h1 : c = '\x7b'
        · rw [if_pos h1] at h
          exact iho _ _ _ h
        · rw [if_neg h1] at h
          by_cases h2 : c = '['
          · rw [if_pos h2] at h
            exact iha _ _ _ h
          · rw [if_neg h2] at h
            by_cases h3 : c = '"'
            · rw [if_pos h3] at h
              cases hps : parseStringF (rest.length + 1) rest with
              | error e =>
                rw [hps] at h
                exact absurd h (by simp [Except.map])
              | ok p =>
                rw [hps] at h
                simp only [Except.map] at h
                injection h with h4
                injection h4 with h5 h6
                subst h5
                rfl
            · rw [if_neg h3] at h
              by_cases h4 : c = 't' ∨ c = 'f' ∨ c = 'n'
              · rw [if_pos h4] at h
                exact parseLiteral_ok _ _ _ h
              · rw [if_neg h4] at h
                by_cases h5 : isDigitChar c ∨ c = '-'
                · rw [if_pos h5] at h
                  exact parseNumber_ok _ _ _ h
                · rw [if_neg h5] at h
                  exact absurd h (by simp)
    · intro s v r h
      rw [parseArrayF_succ] at h
      cases hsw : skipWs s with
      | nil =>
        rw [hsw] at h
        exact ihal [] [] _ _ rfl h
      | cons c rest =>
        rw [hsw] at h
        dsimp only at h
        by_cases h1 : c = ']'
        · rw [if_pos h1] at h
          injection h with h2
          injection h2 with h3 _
          subst h3
          rfl
        · rw [if_neg h1] at h
          exact ihal [] _ _ _ rfl h
    · intro acc s v r hacc h
      rw [arrayLoopF_succ] at h
      cases hpv : parseValueF f s with
      | error e =>
        rw [hpv] at h
        exact absurd h (by simp)
      | ok p =>
        obtain ⟨w, r1⟩ := p
        rw [hpv] at h
        dsimp only at h
        have hw : okVal w = true := ihv _ _ _ hpv
        cases hsw : skipWs r1 with
        | nil =>
          rw [hsw] at h
          exact absurd h (by simp)
        | cons c t =>
          rw [hsw] at h
          dsimp only at h
          by_cases h1 : c = ']'
          · rw [if_pos h1] at h
            injection h with h2
            injection h2 with h3 _
            subst h3
            show okList (acc ++ [w]) = true
            exact okList_append acc [w] hacc (by simp [okList, hw])
          · rw [if_neg h1] at h
            by_cases h2 : c = ','
            · rw [if_pos h2] at h
              exact ihal (acc ++ [w]) t _ _
                (okList_append acc [w] hacc (by simp [okList, hw])) h
            · rw [if_neg h2] at h
              exact absurd h (by simp)
    · intro s v r h
      rw [parseObjectF_succ] at h
      cases hsw : skipWs s with
      | nil =>
        rw [hsw] at h
        exact ihol [] [] _ _ rfl rfl h
      | cons c rest =>
        rw [hsw] at h
        dsimp only at h
        by_cases h1 : c = '\x7d'
        · rw [if_pos h1] at h
          injection h with h2
          injection h2 with h3 _
          subst h3
          rfl
        · rw [if_neg h1] at h
          exact ihol [] _ _ _ rfl rfl h
    · intro m s v r hdk hgm h
      rw [objLoopF_succ] at h
      cases hpv : parseValueF f s with
      | error e =>
        rw [hpv] at h
        exact absurd h (by simp)
      | ok p =>
        obtain ⟨w, r1⟩ := p
        rw [hpv] at h
        dsimp only at h
        cases w with
        | str key =>
          cases hsw : skipWs r1 with
          | nil =>
            rw [hsw] at h
            exact absurd h (by simp)
          | cons c r2 =>
            rw [hsw] at h
            dsimp only at h
            by_cases h1 : c = ':'
            · rw [if_pos h1] at h
              cases hpv2 : parseValueF f r2 with
              | error e =>
                rw [hpv2] at h
                exact absurd h (by simp)
              | ok q =>
                obtain ⟨w2, r3⟩ := q
                rw [hpv2] at h
                dsimp only at h
                have hw2 : okVal w2 = true := ihv _ _ _ hpv2
                cases hsw2 : skipWs r3 with
                | nil =>
                  rw [hsw2] at h
                  exact absurd h (by simp)
                | cons d t =>
                  rw [hsw2] at h
                  dsimp only at h
                  by_cases h2 : d = '\x7d'
                  · rw [if_pos h2] at h
                    injection h with h3
                    injection h3 with h4 _
                    subst h4
                    show (distinctKeys (insertAssoc m key w2) &&
                      okMembers (insertAssoc m key w2)) = true
                    rw [Bool.and_eq_true]
                    exact ⟨insertAssoc_distinct m key w2 hdk,
                      insertAssoc_okMembers m key w2 hgm hw2⟩
                  · rw [if_neg h2] at h
                    by_cases h3 : d = ','
                    · rw [if_pos h3] at h
                      exact ihol (insertAssoc m key w2) t _ _
                        (insertAssoc_distinct m key w2 hdk)
                        (insertAssoc_okMembers m key w2 hgm hw2) h
                    · rw [if_neg h3] at h
                      exact absurd h (by simp)
            · rw [if_neg h1] at h
              exact absurd h (by simp)
        | null => simp at h
        | bool b => simp at h
        | num j => simp at h
        | arr vs => simp at h
        | obj ms => simp at h

/-- Every value fromStr returns satisfies the parse-image invariant:
distinct keys everywhere, and numbers only as mkF64 can build them. -/
theorem fromStr_ok (t : List Char) (v : Value) (h : fromStr t = .ok v) :
    okVal v = true := by
  unfold fromStr at h
  cases hpv : parseValueF (3 * t.length + 4) t with
  | error e =>
    rw [hpv] at h
    exact absurd h (by simp)
  | ok p =>
    obtain ⟨w, r⟩ := p
    rw [hpv] at h
    dsimp only at h
    by_cases hsw : skipWs r = []
    · rw [if_pos hsw] at h
      injection h with h1
      subst h1
      exact (parse_okInv (3 * t.length + 4)).1 t _ r hpv
    · rw [if_neg hsw] at h
      exact absurd h (by simp)

/-- Serializing a good value and parsing back returns exactly the value. -/
theorem fromStr_serValue_of_good (v : Value) (hgood : goodVal v = true) :
    fromStr (serValue v) = .ok v := by
  have hp : parseValueF (3 * (serValue v).length + 4) (serValue v) = .ok (v, []) := by
    have h := parse_serValue (sizeOf v) v le_rfl [] (3 * (serValue v ++ []).length + 4)
      hgood (by intro c cs h; cases h) le_rfl
    rw [List.append_nil] at h
    exact h
  rw [show fromStr (serValue v) =
    (match parseValueF (3 * (serValue v).length + 4) (serValue v) with
     | .error e => .error e
     | .ok (w, rest) => if skipWs rest = [] then .ok w
        else .error .TrailingCharacters) from rfl, hp]
  rfl

theorem scrubMembers_all_keys (Q : List Char → Bool)
    (ms : List (List Char × Value)) (h : ms.all (fun p => Q p.1) = true) :
    (scrubMembers ms).all (fun p => Q p.1) = true := by
  induction ms with
  | nil => rfl
  | cons p rest ih =>
    obtain ⟨k0, v0⟩ := p
    simp only [List.all_cons, Bool.and_eq_true] at h
    show (Q k0 && (scrubMembers rest).all (fun p => Q p.1)) = true
    rw [Bool.and_eq_true]
    exact ⟨h.1, ih h.2⟩

theorem scrubMembers_distinct (ms : List (List Char × Value))
    (h : distinctKeys ms = true) : distinctKeys (scrubMembers ms) = true := by
  induction ms with
  | nil => rfl
  | cons p rest ih =>
    obtain ⟨k0, v0⟩ := p
    simp only [distinctKeys, Bool.and_eq_true] at h
    show ((scrubMembers rest).all (fun p => p.1 ≠ k0) && distinctKeys (scrubMembers rest)) = true
    rw [Bool.and_eq_true]
    exact ⟨scrubMembers_all_keys (fun x => x ≠ k0) rest h.1, ih h.2⟩

/-- Scrubbing changes nothing a reader of the serialization can see:
non-finite numbers print as null, exactly the serialization of Null. -/
theorem serValue_scrub : ∀ n (v : Value), sizeOf v ≤ n → okVal v = true →
    serValue (scrub v) = serValue v := by
  intro n
  induction n using Nat.strong_induction_on with
  | _ n ih =>
    intro v hsz hok
    cases v with
    | null => rfl
    | bool b => rfl
    | str s => rfl
    | num j =>
      show serValue (if finiteNum j then Value.num j else Value.null) = _
      by_cases hfin : finiteNum j = true
      · rw [if_pos hfin]
      · rw [if_neg hfin]
        cases j with
        | fin a b => exact absurd (show finiteNum (JNum.fin a b) = true from hok) hfin
        | nan => rfl
        | inf => rfl
        | neginf => rfl
    | arr vs =>
      have h2 : sizeOf (Value.arr vs) = 1 + sizeOf vs := by simp
      have hlist : ∀ l, (∀ v ∈ l, sizeOf v < n) → okList l = true →
          serItems (scrubList l) = serItems l := by
        intro l
        induction l with
        | nil => intro _ _; rfl
        | cons a rest ihl =>
          intro hszl hokl
          simp only [okList, Bool.and_eq_true] at hokl
          have ha := ih (sizeOf a) (hszl a (List.mem_cons_self _ _)) a le_rfl hokl.1
          have hr := ihl (fun v hv => hszl v (List.mem_cons_of_mem _ hv)) hokl.2
          cases rest with
          | nil =>
            show serValue (scrub a) = serValue a
            exact ha
          | cons b rest2 =>
            show serValue (scrub a) ++ ',' :: serItems (scrubList (b :: rest2)) =
              serValue a ++ ',' :: serItems (b :: rest2)
            rw [ha, hr]
      show '[' :: serItems (scrubList vs) ++ [']'] = '[' :: serItems vs ++ [']']
      rw [hlist vs (fun v hv => by
        have := List.sizeOf_lt_of_mem hv
        omega) hok]
    | obj ms =>
      have h2 : sizeOf (Value.obj ms) = 1 + sizeOf ms := by simp
      have hok2 : distinctKeys ms = true ∧ okMembers ms = true := by
        have h := hok
        simp only [okVal, Bool.and_eq_true] at h
        exact h
      have hmem : ∀ l, (∀ p ∈ l, sizeOf p.2 < n) → okMembers l = true →
          serMembers (scrubMembers l) = serMembers l := by
        intro l
        induction l with
        | nil => intro _ _; rfl
        | cons p rest ihl =>
          obtain ⟨k0, v0⟩ := p
          intro hszl hokl
          simp only [okMembers, Bool.and_eq_true] at hokl
          have ha := ih (sizeOf v0) (hszl (k0, v0) (List.mem_cons_self _ _)) v0 le_rfl hokl.1
          have hr := ihl (fun p hp => hszl p (List.mem_cons_of_mem _ hp)) hokl.2
          cases rest with
          | nil =>
            show '"' :: serStrBody k0 ++ '"' :: ':' :: serValue (scrub v0) =
              '"' :: serStrBody k0 ++ '"' :: ':' :: serValue v0
            rw [ha]
          | cons q rest2 =>
            show ('"' :: serStrBody k0 ++ '"' :: ':' :: serValue (scrub v0)) ++
                ',' :: serMembers (scrubMembers (q :: rest2)) =
              ('"' :: serStrBody k0 ++ '"' :: ':' :: serValue v0) ++
                ',' :: serMembers (q :: rest2)
            rw [ha, hr]
      show '\x7b' :: serMembers (scrubMembers ms) ++ ['\x7d'] =
        '\x7b' :: serMembers ms ++ ['\x7d']
      rw [hmem ms (fun p hp => by
        have h1 := List.sizeOf_lt_of_mem hp
        have h3 : sizeOf p.2 < sizeOf p := by
          obtain ⟨a, b⟩ := p
          show sizeOf b < sizeOf (a, b)
          have hab : sizeOf (a, b) = 1 + sizeOf a + sizeOf b := rfl
          omega
        omega) hok2.2]

/-- The scrub of a parse-image value is good: all numbers finite, keys
still distinct. -/
theorem scrub_good : ∀ n (v : Value), sizeOf v ≤ n → okVal v = true →
    goodVal (scrub v) = true := by
  intro n
  induction n using Nat.strong_induction_on with
  | _ n ih =>
    intro v hsz hok
    cases v with
    | null => rfl
    | bool b => rfl
    | str s => rfl
    | num j =>
      show goodVal (if finiteNum j then Value.num j else Value.null) = true
      by_cases hfin : finiteNum j = true
      · rw [if_pos hfin]
        exact hfin
      · rw [if_neg hfin]
        rfl
    | arr vs =>
      have h2 : sizeOf (Value.arr vs) = 1 + sizeOf vs := by simp
      have hlist : ∀ l, (∀ v ∈ l, sizeOf v < n) → okList l = true →
          goodList (scrubList l) = true := by
        intro l
        induction l with
        | nil => intro _ _; rfl
        | cons a rest ihl =>
          intro hszl hokl
          simp only [okList, Bool.and_eq_true] at hokl
          show (goodVal (scrub a) && goodList (scrubList rest)) = true
          rw [Bool.and_eq_true]
          refine ⟨ih (sizeOf a) (hszl a (List.mem_cons_self _ _)) a le_rfl hokl.1, ?_⟩
          exact ihl (fun v hv => hszl v (List.mem_cons_of_mem _ hv)) hokl.2
      show goodList (scrubList vs) = true
      refine hlist vs (fun v hv => ?_) hok
      have := List.sizeOf_lt_of_mem hv
      omega
    | obj ms =>
      have h2 : sizeOf (Value.obj ms) = 1 + sizeOf ms := by simp
      have hok2 : distinctKeys ms = true ∧ okMembers ms = true := by
        have h := hok
        simp only [okVal, Bool.and_eq_true] at h
        exact h
      have hmem : ∀ l, (∀ p ∈ l, sizeOf p.2 < n) → okMembers l = true →
          goodMembers (scrubMembers l) = true := by
        intro l
        induction l with
        | nil => intro _ _; rfl
        | cons p rest ihl =>
          obtain ⟨k0, v0⟩ := p
          intro hszl hokl
          simp only [okMembers, Bool.and_eq_true] at hokl
          show (goodVal (scrub v0) && goodMembers (scrubMembers rest)) = true
          rw [Bool.and_eq_true]
          refine ⟨ih (sizeOf v0) (hszl (k0, v0) (List.mem_cons_self _ _)) v0 le_rfl
            hokl.1, ?_⟩
          exact ihl (fun p hp => hszl p (List.mem_cons_of_mem _ hp)) hokl.2
      show (distinctKeys (scrubMembers ms) && goodMembers (scrubMembers ms)) = true
      rw [Bool.and_eq_true]
      refine ⟨scrubMembers_distinct ms hok2.1, ?_⟩
      refine hmem ms (fun p hp => ?_) hok2.2
      have h1 := List.sizeOf_lt_of_mem hp
      have h3 : sizeOf p.2 < sizeOf p := by
        obtain ⟨a, b⟩ := p
        show sizeOf b < sizeOf (a, b)
        have hab : sizeOf (a, b) = 1 + sizeOf a + sizeOf b := rfl
        omega
      omega

set_option maxRecDepth 8000 in
/-- C2: every value in the image of a successful parse reserializes to a
text that parse accepts, including values holding infinities produced by
overflowing numeric text, whose numbers serialize as null; concretely,
1e400 parses to the infinite number, alone and inside an array, and both
reserializations parse back with Null in the infinite position. -/
theorem c2_parse_closure (t : List Char) (v : Value) (h : fromStr t = .ok v) :
    (∃ w, fromStr (serValue v) = .ok w) ∧
    fromStr (("1e400".toList)) = .ok (.num .inf) ∧
    fromStr (serValue (.num .inf)) = .ok .null ∧
    fromStr (("[1e400]".toList)) = .ok (.arr [.num .inf]) ∧
    fromStr (serValue (.arr [.num .inf])) = .ok (.arr [.null]) ∧
    fromStr (serValue (.num .nan)) = .ok .null ∧
    fromStr (serValue (.num .neginf)) = .ok .null := by
  refine ⟨?_, rfl, rfl, rfl, rfl, rfl, rfl⟩
  have hok : okVal v = true := fromStr_ok t v h
  refine ⟨scrub v, ?_⟩
  rw [← serValue_scrub (sizeOf v) v le_rfl hok]
  exact fromStr_serValue_of_good (scrub v) (scrub_good (sizeOf v) v le_rfl hok)

set_option maxRecDepth 8000 in
theorem c2_parse_closure_witness :
    fromStr (("1e400".toList)) = .ok (.num .inf) ∧
    ((∃ w, fromStr (serValue (.num .inf)) = .ok w) ∧
     fromStr (("1e400".toList)) = .ok (.num .inf) ∧
     fromStr (serValue (.num .inf)) = .ok .null ∧
     fromStr (("[1e400]".toList)) = .ok (.arr [.num .inf]) ∧
     fromStr (serValue (.arr [.num .inf])) = .ok (.arr [.null]) ∧
     fromStr (serValue (.num .nan)) = .ok .null ∧
     fromStr (serValue (.num .neginf)) = .ok .null) :=
  ⟨rfl, c2_parse_closure (("1e400".toList)) (.num .inf) rfl⟩

theorem dropWhile_length_le (p : Char → Bool) (l : List Char) :
    (l.dropWhile p).length ≤ l.length :=
  (List.dropWhile_sublist _).length_le

theorem skipWs_length_le (s : List Char) : (skipWs s).length ≤ s.length :=
  dropWhile_length_le _ s

theorem skipWs_eq_nil_iff (s : List Char) : skipWs s = [] ↔ allWs s := by
  unfold skipWs allWs
  exact List.dropWhile_eq_nil_iff

theorem skipWs_append_allWs (w s : List Char) (hw : allWs w) :
    skipWs (w ++ s) = skipWs s := by
  induction w with
  | nil => rfl
  | cons c cs ih =>
    have hc : rustIsWhitespace c = true := hw c (List.mem_cons_self _ _)
    show List.dropWhile rustIsWhitespace (c :: (cs ++ s)) = _
    rw [List.dropWhile_cons_of_pos hc]
    exact ih (fun d hd => hw d (List.mem_cons_of_mem _ hd))

theorem skipWs_append_of_cons (s w : List Char) (c : Char) (rest : List Char)
    (h : skipWs s = c :: rest) : skipWs (s ++ w) = c :: (rest ++ w) := by
  induction s with
  | nil => cases h
  | cons a as ih =>
    by_cases ha : rustIsWhitespace a = true
    · have h1 : skipWs (a :: as) = skipWs as := by
        show List.dropWhile rustIsWhitespace (a :: as) = _
        rw [List.dropWhile_cons_of_pos ha]
        rfl
      rw [h1] at h
      show List.dropWhile rustIsWhitespace (a :: (as ++ w)) = _
      rw [List.dropWhile_cons_of_pos ha]
      exact ih h
    · have hf : rustIsWhitespace a = false := by
        cases hv : rustIsWhitespace a
        · rfl
        · exact absurd hv ha
      rw [skipWs_cons_of_not_ws as hf] at h
      injection h with h1 h2
      subst h1
      subst h2
      show skipWs (a :: (as ++ w)) = _
      rw [skipWs_cons_of_not_ws _ hf]

theorem parseStringF_consume : ∀ (f : Nat) (s k r : List Char),
    parseStringF f s = .ok (k, r) → r.length < s.length := by
  intro f
  induction f with
  | zero =>
    intro s k r h
    exact Except.noConfusion h
  | succ f ih =>
    intro s k r h
    cases s with
    | nil => exact Except.noConfusion h
    | cons c rest =>
      by_cases hc : c = '"'
      · subst hc
        rw [parseStringF_quote] at h
        injection h with h1
        injection h1 with h2 h3
        subst h3
        simp
      · by_cases hb : c = '\\'
        · subst hb
          cases rest with
          | nil => exact Except.noConfusion h
          | cons e rest2 =>
            rw [parseStringF_backslash] at h
            cases hd : escDecode e with
            | some d =>
              rw [hd] at h
              dsimp only at h
              cases hin : parseStringF f rest2 with
              | error e2 =>
                rw [hin] at h
                exact absurd h (by simp [Except.map])
              | ok p =>
                rw [hin] at h
                simp only [Except.map] at h
                injection h with h1
                injection h1 with h2 h3
                subst h3
                have := ih rest2 p.1 p.2 (by rw [hin])
                simp only [List.length_cons]
                omega
            | none =>
              rw [hd] at h
              dsimp only at h
              by_cases hu : e = 'u'
              · rw [if_pos hu] at h
                cases rest2 with
                | nil => exact Except.noConfusion h
                | cons h1c r1 =>
                  cases r1 with
                  | nil => exact Except.noConfusion h
                  | cons h2c r2 =>
                    cases r2 with
                    | nil => exact Except.noConfusion h
                    | cons h3c r3 =>
                      cases r3 with
                      | nil => exact Except.noConfusion h
                      | cons h4c rest3 =>
                        dsimp only at h
                        cases hfr : fromStrRadix16 [h1c, h2c, h3c, h4c] with
                        | none =>
                          rw [hfr] at h
                          exact Except.noConfusion h
                        | some code =>
                          rw [hfr] at h
                          dsimp only at h
                          cases hch : charFromU32 code with
                          | none =>
                            rw [hch] at h
                            exact Except.noConfusion h
                          | some ch =>
                            rw [hch] at h
                            dsimp only at h
                            cases hin : parseStringF f rest3 with
                            | error e2 =>
                              rw [hin] at h
                              exact absurd h (by simp [Except.map])
                            | ok p =>
                              rw [hin] at h
                              simp only [Except.map] at h
                              injection h with hh1
                              injection hh1 with hh2 hh3
                              subst hh3
                              have := ih rest3 p.1 p.2 (by rw [hin])
                              simp only [List.length_cons]
                              omega
              · rw [if_neg hu] at h
                exact Except.noConfusion h
        · rw [parseStringF_other f rest hc hb] at h
          cases hin : parseStringF f rest with
          | error e2 =>
            rw [hin] at h
            exact absurd h (by simp [Except.map])
          | ok p =>
            rw [hin] at h
            simp only [Except.map] at h
            injection h with h1
            injection h1 with h2 h3
            subst h3
            have := ih rest p.1 p.2 (by rw [hin])
            simp only [List.length_cons]
            omega

theorem parseStringF_mono : ∀ (f : Nat) (g : Nat) (s : List Char)
    (p : List Char × List Char), f ≤ g → parseStringF f s = .ok p →
    parseStringF g s = .ok p := by
  intro f
  induction f with
  | zero =>
    intro g s p _ h
    exact Except.noConfusion h
  | succ f ih =>
    intro g s p hfg h
    obtain ⟨g1, rfl⟩ : ∃ g1, g = g1 + 1 := ⟨g - 1, by omega⟩
    cases s with
    | nil => exact Except.noConfusion h
    | cons c rest =>
      by_cases hc : c = '"'
      · subst hc
        rw [parseStringF_quote] at h
        rw [parseStringF_quote]
        exact h
      · by_cases hb : c = '\\'
        · subst hb
          cases rest with
          | nil => exact Except.noConfusion h
          | cons e rest2 =>
            rw [parseStringF_backslash] at h
            rw [parseStringF_backslash]
            cases hd : escDecode e with
            | some d =>
              rw [hd] at h
              dsimp only at h ⊢
              cases hin : parseStringF f rest2 with
              | error e2 =>
                rw [hin] at h
                exact absurd h (by simp [Except.map])
              | ok q =>
                rw [hin] at h
                rw [ih g1 rest2 q (by omega) hin]
                exact h
            | none =>
              rw [hd] at h
              dsimp only at h ⊢
              by_cases hu : e = 'u'
              · rw [if_pos hu] at h ⊢
                cases rest2 with
                | nil => exact Except.noConfusion h
                | cons h1c r1 =>
                  cases r1 with
                  | nil => exact Except.noConfusion h
                  | cons h2c r2 =>
                    cases r2 with
                    | nil => exact Except.noConfusion h
                    | cons h3c r3 =>
                      cases r3 with
                      | nil => exact Except.noConfusion h
                      | cons h4c rest3 =>
                        dsimp only at h ⊢
                        cases hfr : fromStrRadix16 [h1c, h2c, h3c, h4c] with
                        | none =>
                          rw [hfr] at h
                          exact Except.noConfusion h
                        | some code =>
                          rw [hfr] at h
                          dsimp only at h ⊢
                          cases hch : charFromU32 code with
                          | none =>
                            rw [hch] at h
                            exact Except.noConfusion h
                          | some ch =>
                            rw [hch] at h
                            dsimp only at h ⊢
                            cases hin : parseStringF f rest3 with
                            | error e2 =>
                              rw [hin] at h
                              exact absurd h (by simp [Except.map])
                            | ok q =>
                              rw [hin] at h
                              rw [ih g1 rest3 q (by omega) hin]
                              exact h
              · rw [if_neg hu] at h
                exact Except.noConfusion h
        · rw [parseStringF_other f rest hc hb] at h
          rw [parseStringF_other g1 rest hc hb]
          cases hin : parseStringF f rest with
          | error e2 =>
            rw [hin] at h
            exact absurd h (by simp [Except.map])
          | ok q =>
            rw [hin] at h
            rw [ih g1 rest q (by omega) hin]
            exact h

theorem parseStringF_ext : ∀ (f : Nat) (s k r w : List Char),
    parseStringF f s = .ok (k, r) → parseStringF f (s ++ w) = .ok (k, r ++ w) := by
  intro f
  induction f with
  | zero =>
    intro s k r w h
    exact Except.noConfusion h
  | succ f ih =>
    intro s k r w h
    cases s with
    | nil => exact Except.noConfusion h
    | cons c rest =>
      by_cases hc : c = '"'
      · subst hc
        rw [parseStringF_quote] at h
        injection h with h1
        injection h1 with h2 h3
        subst h2
        subst h3
        show parseStringF (f + 1) ('"' :: (rest ++ w)) = _
        rw [parseStringF_quote]
      · by_cases hb : c = '\\'
        · subst hb
          cases rest with
          | nil => exact Except.noConfusion h
          | cons e rest2 =>
            rw [parseStringF_backslash] at h
            show parseStringF (f + 1) ('\\' :: e :: (rest2 ++ w)) = _
            rw [parseStringF_backslash]
            cases hd : escDecode e with
            | some d =>
              rw [hd] at h
              dsimp only at h ⊢
              cases hin : parseStringF f rest2 with
              | error e2 =>
                rw [hin] at h
                exact absurd h (by simp [Except.map])
              | ok q =>
                rw [hin] at h
                simp only [Except.map] at h
                injection h with h1
                injection h1 with h2 h3
                rw [ih rest2 q.1 q.2 w (by rw [hin])]
                simp only [Except.map]
                rw [h2, h3]
            | none =>
              rw [hd] at h
              dsimp only at h ⊢
              by_cases hu : e = 'u'
              · rw [if_pos hu] at h ⊢
                cases rest2 with
                | nil => exact Except.noConfusion h
                | cons h1c r1 =>
                  cases r1 with
                  | nil => exact Except.noConfusion h
                  | cons h2c r2 =>
                    cases r2 with
                    | nil => exact Except.noConfusion h
                    | cons h3c r3 =>
                      cases r3 with
                      | nil => exact Except.noConfusion h
                      | cons h4c rest3 =>
                        simp only [List.cons_append]
                        dsimp only at h ⊢
                        cases hfr : fromStrRadix16 [h1c, h2c, h3c, h4c] with
                        | none =>
                          rw [hfr] at h
                          exact Except.noConfusion h
                        | some code =>
                          rw [hfr] at h
                          dsimp only at h ⊢
                          cases hch : charFromU32 code with
                          | none =>
                            rw [hch] at h
                            exact Except.noConfusion h
                          | some ch =>
                            rw [hch] at h
                            dsimp only at h ⊢
                            cases hin : parseStringF f rest3 with
                            | error e2 =>
                              rw [hin] at h
                              exact absurd h (by simp [Except.map])
                            | ok q =>
                              rw [hin] at h
                              simp only [Except.map] at h
                              injection h with h1
                              injection h1 with h2 h3
                              rw [ih rest3 q.1 q.2 w (by rw [hin])]
                              simp only [Except.map]
                              rw [h2, h3]
              · rw [if_neg hu] at h
                exact Except.noConfusion h
        · rw [parseStringF_other f rest hc hb] at h
          show parseStringF (f + 1) (c :: (rest ++ w)) = _
          rw [parseStringF_other f (rest ++ w) hc hb]
          cases hin : parseStringF f rest with
          | error e2 =>
            rw [hin] at h
            exact absurd h (by simp [Except.map])
          | ok q =>
            rw [hin] at h
            simp only [Except.map] at h
            injection h with h1
            injection h1 with h2 h3
            rw [ih rest q.1 q.2 w (by rw [hin])]
            simp only [Except.map]
            rw [h2, h3]

theorem dropWhile_head_false {p : Char → Bool} {l : List Char} {c : Char} {cs : List Char}
    (h : l.dropWhile p = c :: cs) : p c = false := by
  have h2 := List.head_dropWhile_not p l (by simp [h])
  have h3 : (l.dropWhile p).head (by simp [h]) = c := by simp [h]
  rw [h3] at h2
  exact h2

theorem scan_append_ext {p : Char → Bool} (s w : List Char)
    (hw : ∀ c cs, w = c :: cs → p c = false) :
    (s ++ w).takeWhile p = s.takeWhile p ∧
    (s ++ w).dropWhile p = s.dropWhile p ++ w := by
  have hs := List.takeWhile_append_dropWhile p s
  have hall : ∀ c ∈ s.takeWhile p, p c = true := fun c hc => List.mem_takeWhile_imp hc
  have hhead : ∀ c cs, s.dropWhile p ++ w = c :: cs → p c = false := by
    intro c cs hcc
    cases hd : s.dropWhile p with
    | nil =>
      rw [hd, List.nil_append] at hcc
      exact hw c cs hcc
    | cons d ds =>
      rw [hd] at hcc
      simp only [List.cons_append] at hcc
      injection hcc with h1 h2
      subst h1
      exact dropWhile_head_false hd
  have hmain := scan_split hall hhead
  rw [← List.append_assoc, hs] at hmain
  exact hmain

theorem alpha_false_of_ws {c : Char} (h : rustIsWhitespace c = true) :
    c.isAlpha = false := by
  have hb := of_decide_eq_true h
  rw [show c.isAlpha = (decide ('A' ≤ c ∧ c ≤ 'Z') || decide ('a' ≤ c ∧ c ≤ 'z')) from by
    rw [show c.isAlpha = (c.isUpper || c.isLower) from rfl,
      show c.isUpper = (decide ('A' ≤ c) && decide (c ≤ 'Z')) from rfl,
      show c.isLower = (decide ('a' ≤ c) && decide (c ≤ 'z')) from rfl]
    simp]
  simp only [Bool.or_eq_false_iff, decide_eq_false_iff_not]
  rw [show (('A' ≤ c ∧ c ≤ 'Z') ↔ (65 ≤ c.toNat ∧ c.toNat ≤ 90)) from Iff.rfl,
    show (('a' ≤ c ∧ c ≤ 'z') ↔ (97 ≤ c.toNat ∧ c.toNat ≤ 122)) from Iff.rfl]
  omega

theorem numChar_false_of_ws {c : Char} (h : rustIsWhitespace c = true) :
    numChar c = false := by
  have hb := of_decide_eq_true h
  have h1 : isDigitChar c = false := by
    simp only [isDigitChar, decide_eq_false_iff_not]
    omega
  have h2 : c ≠ '.' := by
    intro he
    subst he
    revert hb
    decide
  have h3 : c ≠ 'e' := by
    intro he
    subst he
    revert hb
    decide
  have h4 : c ≠ 'E' := by
    intro he
    subst he
    revert hb
    decide
  have h5 : c ≠ '+' := by
    intro he
    subst he
    revert hb
    decide
  have h6 : c ≠ '-' := by
    intro he
    subst he
    revert hb
    decide
  simp [numChar, h1, h2, h3, h4, h5, h6]

theorem parseLiteral_consume (s : List Char) (v : Value) (r : List Char)
    (h : parseLiteral s = .ok (v, r)) : r.length < s.length := by
  have hsplit : (s.takeWhile Char.isAlpha).length + (s.dropWhile Char.isAlpha).length
      = s.length := by
    rw [← List.length_append, List.takeWhile_append_dropWhile]
  have htrue : (("true".toList)).length = 4 := rfl
  have hfalse : (("false".toList)).length = 5 := rfl
  have hnull : (("null".toList)).length = 4 := rfl
  simp only [parseLiteral] at h
  split at h
  · rename_i hlit
    injection h with h1
    injection h1 with h2 h3
    subst h3
    rw [hlit, htrue] at hsplit
    omega
  · split at h
    · rename_i hlit
      injection h with h1
      injection h1 with h2 h3
      subst h3
      rw [hlit, hfalse] at hsplit
      omega
    · split at h
      · rename_i hlit
        injection h with h1
        injection h1 with h2 h3
        subst h3
        rw [hlit, hnull] at hsplit
        omega
      · exact Except.noConfusion h

theorem parseLiteral_ext (s w : List Char) (v : Value) (r : List Char)
    (hw : ∀ c cs, w = c :: cs → Char.isAlpha c = false)
    (h : parseLiteral s = .ok (v, r)) : parseLiteral (s ++ w) = .ok (v, r ++ w) := by
  obtain ⟨ht, hd⟩ := scan_append_ext s w hw
  simp only [parseLiteral] at h ⊢
  rw [ht, hd]
  split at h
  · rename_i hlit
    injection h with h1
    injection h1 with h2 h3
    subst h2
    subst h3
    rw [if_pos hlit]
  · rename_i hneg1
    split at h
    · rename_i hlit
      injection h with h1
      injection h1 with h2 h3
      subst h2
      subst h3
      rw [if_neg hneg1, if_pos hlit]
    · rename_i hneg2
      split at h
      · rename_i hlit
        injection h with h1
        injection h1 with h2 h3
        subst h2
        subst h3
        rw [if_neg hneg1, if_neg hneg2, if_pos hlit]
      · exact Except.noConfusion h

theorem parseNumber_consume (s : List Char) (v : Value) (r : List Char)
    (h : parseNumber s = .ok (v, r)) : r.length < s.length := by
  cases s with
  | nil => exact Except.noConfusion h
  | cons c cs =>
    simp only [parseNumber] at h
    by_cases hc : c = '-'
    · rw [if_pos hc] at h
      dsimp only at h
      split at h
      · rename_i j hj
        injection h with h1
        injection h1 with h2 h3
        subst h3
        have := dropWhile_length_le numChar cs
        simp only [List.length_cons]
        omega
      · exact Except.noConfusion h
    · rw [if_neg hc] at h
      dsimp only at h
      by_cases hnc : numChar c = true
      · rw [List.takeWhile_cons, List.dropWhile_cons, if_pos (by simp [hnc]),
          if_pos (by simp [hnc])] at h
        split at h
        · rename_i j hj
          injection h with h1
          injection h1 with h2 h3
          subst h3
          have := dropWhile_length_le numChar cs
          simp only [List.length_cons]
          omega
        · exact Except.noConfusion h
      · have hncf : numChar c = false := by
          cases hv : numChar c
          · rfl
          · exact absurd hv hnc
        rw [List.takeWhile_cons, if_neg (by simp [hncf]),
          show rustParseF64 [] = none from rfl] at h
        exact Except.noConfusion h

theorem parseNumber_ext (s w : List Char) (v : Value) (r : List Char)
    (hw : ∀ c cs, w = c :: cs → numChar c = false)
    (h : parseNumber s = .ok (v, r)) : parseNumber (s ++ w) = .ok (v, r ++ w) := by
  cases s with
  | nil => exact Except.noConfusion h
  | cons c cs =>
    simp only [parseNumber] at h ⊢
    simp only [List.cons_append]
    by_cases hc : c = '-'
    · rw [if_pos hc] at h ⊢
      dsimp only at h ⊢
      obtain ⟨ht, hd⟩ := scan_append_ext cs w hw
      rw [ht, hd]
      split at h
      · rename_i j hj
        injection h with h1
        injection h1 with h2 h3
        subst h2
        subst h3
        rfl
      · exact Except.noConfusion h
    · rw [if_neg hc] at h ⊢
      dsimp only at h ⊢
      obtain ⟨ht, hd⟩ := scan_append_ext (c :: cs) w hw
      simp only [List.cons_append] at ht hd
      rw [ht, hd]
      split at h
      · rename_i j hj
        injection h with h1
        injection h1 with h2 h3
        subst h2
        subst h3
        rfl
      · exact Except.noConfusion h

theorem skipWs_cons_length {s : List Char} {c : Char} {rest : List Char}
    (h : skipWs s = c :: rest) : rest.length < s.length := by
  have h1 := skipWs_length_le s
  rw [h] at h1
  simp only [List.length_cons] at h1
  omega

/-- A successful parse consumes at least one character: the remainder is
strictly shorter than the input, for each production of the parser. -/
theorem parse_consume : ∀ f,
    (∀ s v r, parseValueF f s = .ok (v, r) → r.length < s.length) ∧
    (∀ s v r, parseArrayF f s = .ok (v, r) → r.length < s.length) ∧
    (∀ acc s v r, arrayLoopF f acc s = .ok (v, r) → r.length < s.length) ∧
    (∀ s v r, parseObjectF f s = .ok (v, r) → r.length < s.length) ∧
    (∀ m s v r, objLoopF f m s = .ok (v, r) → r.length < s.length) := by
  intro f
  induction f with
  | zero =>
    refine ⟨?_, ?_, ?_, ?_, ?_⟩
    · intro s v r h
      exact Except.noConfusion h
    · intro s v r h
      exact Except.noConfusion h
    · intro acc s v r h
      exact Except.noConfusion h
    · intro s v r h
      exact Except.noConfusion h
    · intro m s v r h
      exact Except.noConfusion h
  | succ f ih =>
    obtain ⟨ihv, iha, ihal, iho, ihol⟩ := ih
    refine ⟨?_, ?_, ?_, ?_, ?_⟩
    · intro s v r h
      rw [parseValueF_succ] at h
      cases hsw : skipWs s with
      | nil =>
        rw [hsw] at h
        exact absurd h (by simp)
      | cons c rest =>
        rw [hsw] at h
        dsimp only at h
        have hlen : rest.length < s.length := skipWs_cons_length hsw
        have hlenc : (c :: rest).length ≤ s.length := by
          have := skipWs_length_le s
          rw [hsw] at this
          exact this
        by_cases h1 : c = '\x7b'
        · rw [if_pos h1] at h
          have := iho _ _ _ h
          omega
        · rw [if_neg h1] at h
          by_cases h2 : c = '['
          · rw [if_pos h2] at h
            have := iha _ _ _ h
            omega
          · rw [if_neg h2] at h
            by_cases h3 : c = '"'
            · rw [if_pos h3] at h
              cases hps : parseStringF (rest.length + 1) rest with
              | error e =>
                rw [hps] at h
                exact absurd h (by simp [Except.map])
              | ok p =>
                rw [hps] at h
                simp only [Except.map] at h
                injection h with h4
                injection h4 with h5 h6
                subst h6
                have := parseStringF_consume (rest.length + 1) rest p.1 p.2
                  (by rw [hps])
                omega
            · rw [if_neg h3] at h
              by_cases h4 : c = 't' ∨ c = 'f' ∨ c = 'n'
              · rw [if_pos h4] at h
                have := parseLiteral_consume _ _ _ h
                simp only [List.length_cons] at this hlenc
                omega
              · rw [if_neg h4] at h
                by_cases h5 : isDigitChar c ∨ c = '-'
                · rw [if_pos h5] at h
                  have := parseNumber_consume _ _ _ h
                  simp only [List.length_cons] at this hlenc
                  omega
                · rw [if_neg h5] at h
                  exact absurd h (by simp)
    · intro s v r h
      rw [parseArrayF_succ] at h
      cases hsw : skipWs s with
      | nil =>
        rw [hsw] at h
        have := ihal [] [] _ _ h
        simp at this
      | cons c rest =>
        rw [hsw] at h
        dsimp only at h
        have hlen : rest.length < s.length := skipWs_cons_length hsw
        have hlenc : (c :: rest).length ≤ s.length := by
          have := skipWs_length_le s
          rw [hsw] at this
          exact this
        by_cases h1 : c = ']'
        · rw [if_pos h1] at h
          injection h with h2
          injection h2 with h3 h4
          subst h4
          omega
        · rw [if_neg h1] at h
          have := ihal [] _ _ _ h
          simp only [List.length_cons] at this hlenc
          omega
    · intro acc s v r h
      rw [arrayLoopF_succ] at h
      cases hpv : parseValueF f s with
      | error e =>
        rw [hpv] at h
        exact absurd h (by simp)
      | ok p =>
        obtain ⟨w, r1⟩ := p
        rw [hpv] at h
        dsimp only at h
        have hw : r1.length < s.length := ihv _ _ _ hpv
        cases hsw : skipWs r1 with
        | nil =>
          rw [hsw] at h
          exact absurd h (by simp)
        | cons c t =>
          rw [hsw] at h
          dsimp only at h
          have hlen : t.length < r1.length := skipWs_cons_length hsw
          by_cases h1 : c = ']'
          · rw [if_pos h1] at h
            injection h with h2
            injection h2 with h3 h4
            subst h4
            omega
          · rw [if_neg h1] at h
            by_cases h2 : c = ','
            · rw [if_pos h2] at h
              have := ihal (acc ++ [w]) t _ _ h
              omega
            · rw [if_neg h2] at h
              exact absurd h (by simp)
    · intro s v r h
      rw [parseObjectF_succ] at h
      cases hsw : skipWs s with
      | nil =>
        rw [hsw] at h
        have := ihol [] [] _ _ h
        simp at this
      | cons c rest =>
        rw [hsw] at h
        dsimp only at h
        have hlen : rest.length < s.length := skipWs_cons_length hsw
        have hlenc : (c :: rest).length ≤ s.length := by
          have := skipWs_length_le s
          rw [hsw] at this
          exact this
        by_cases h1 : c = '\x7d'
        · rw [if_pos h1] at h
          injection h with h2
          injection h2 with h3 h4
          subst h4
          omega
        · rw [if_neg h1] at h
          have := ihol [] _ _ _ h
          simp only [List.length_cons] at this hlenc
          omega
    · intro m s v r h
      rw [objLoopF_succ] at h
      cases hpv : parseValueF f s with
      | error e =>
        rw [hpv] at h
        exact absurd h (by simp)
      | ok p =>
        obtain ⟨w, r1⟩ := p
        rw [hpv] at h
        dsimp only at h
        have hw : r1.length < s.length := ihv _ _ _ hpv
        cases w with
        | str key =>
          cases hsw : skipWs r1 with
          | nil =>
            rw [hsw] at h
            exact absurd h (by simp)
          | cons c r2 =>
            rw [hsw] at h
            dsimp only at h
            have hlen : r2.length < r1.length := skipWs_cons_length hsw
            by_cases h1 : c = ':'
            · rw [if_pos h1] at h
              cases hpv2 : parseValueF f r2 with
              | error e =>
                rw [hpv2] at h
                exact absurd h (by simp)
              | ok q =>
                obtain ⟨w2, r3⟩ := q
                rw [hpv2] at h
                dsimp only at h
                have hw2 : r3.length < r2.length := ihv _ _ _ hpv2
                cases hsw2 : skipWs r3 with
                | nil =>
                  rw [hsw2] at h
                  exact absurd h (by simp)
                | cons d t =>
                  rw [hsw2] at h
                  dsimp only at h
                  have hlen2 : t.length < r3.length := skipWs_cons_length hsw2
                  by_cases h2 : d = '\x7d'
                  · rw [if_pos h2] at h
                    injection h with h3
                    injection h3 with h4 h5
                    subst h5
                    omega
                  · rw [if_neg h2] at h
                    by_cases h3 : d = ','
                    · rw [if_pos h3] at h
                      have := ihol (insertAssoc m key w2) t _ _ h
                      omega
                    · rw [if_neg h3] at h
                      exact absurd h (by simp)
            · rw [if_neg h1] at h
              exact absurd h (by simp)
        | null => simp at h
        | bool b => simp at h
        | num j => simp at h
        | arr vs => simp at h
        | obj ms => simp at h

/-- Successful results are stable under extra fuel for each production. -/
theorem parse_mono_ok : ∀ g,
    (∀ f s p, f ≤ g → parseValueF f s = .ok p → parseValueF g s = .ok p) ∧
    (∀ f s p, f ≤ g → parseArrayF f s = .ok p → parseArrayF g s = .ok p) ∧
    (∀ f acc s p, f ≤ g → arrayLoopF f acc s = .ok p → arrayLoopF g acc s = .ok p) ∧
    (∀ f s p, f ≤ g → parseObjectF f s = .ok p → parseObjectF g s = .ok p) ∧
    (∀ f m s p, f ≤ g → objLoopF f m s = .ok p → objLoopF g m s = .ok p) := by
  intro g
  induction g with
  | zero =>
    refine ⟨?_, ?_, ?_, ?_, ?_⟩
    · intro f s p hf h
      obtain rfl : f = 0 := by omega
      exact Except.noConfusion h
    · intro f s p hf h
      obtain rfl : f = 0 := by omega
      exact Except.noConfusion h
    · intro f acc s p hf h
      obtain rfl : f = 0 := by omega
      exact Except.noConfusion h
    · intro f s p hf h
      obtain rfl : f = 0 := by omega
      exact Except.noConfusion h
    · intro f m s p hf h
      obtain rfl : f = 0 := by omega
      exact Except.noConfusion h
  | succ g ih =>
    obtain ⟨ihv, iha, ihal, iho, ihol⟩ := ih
    refine ⟨?_, ?_, ?_, ?_, ?_⟩
    · intro f s p hf h
      cases f with
      | zero => exact Except.noConfusion h
      | succ f1 =>
        rw [parseValueF_succ] at h
        rw [parseValueF_succ]
        cases hsw : skipWs s with
        | nil =>
          rw [hsw] at h
          exact absurd h (by simp)
        | cons c rest =>
          rw [hsw] at h
          dsimp only at h ⊢
          by_cases h1 : c = '\x7b'
          · rw [if_pos h1] at h ⊢
            exact iho f1 _ _ (by omega) h
          · rw [if_neg h1] at h ⊢
            by_cases h2 : c = '['
            · rw [if_pos h2] at h ⊢
              exact iha f1 _ _ (by omega) h
            · rw [if_neg h2] at h ⊢
              by_cases h3 : c = '"'
              · rw [if_pos h3] at h ⊢
                exact h
              · rw [if_neg h3] at h ⊢
                by_cases h4 : c = 't' ∨ c = 'f' ∨ c = 'n'
                · rw [if_pos h4] at h ⊢
                  exact h
                · rw [if_neg h4] at h ⊢
                  by_cases h5 : isDigitChar c ∨ c = '-'
                  · rw [if_pos h5] at h ⊢
                    exact h
                  · rw [if_neg h5] at h
                    exact absurd h (by simp)
    · intro f s p hf h
      cases f with
      | zero => exact Except.noConfusion h
      | succ f1 =>
        rw [parseArrayF_succ] at h
        rw [parseArrayF_succ]
        cases hsw : skipWs s with
        | nil =>
          rw [hsw] at h
          exact ihal f1 [] [] _ (by omega) h
        | cons c rest =>
          rw [hsw] at h
          dsimp only at h ⊢
          by_cases h1 : c = ']'
          · rw [if_pos h1] at h ⊢
            exact h
          · rw [if_neg h1] at h ⊢
            exact ihal f1 [] _ _ (by omega) h
    · intro f acc s p hf h
      cases f with
      | zero => exact Except.noConfusion h
      | succ f1 =>
        rw [arrayLoopF_succ] at h
        rw [arrayLoopF_succ]
        cases hpv : parseValueF f1 s with
        | error e =>
          rw [hpv] at h
          exact absurd h (by simp)
        | ok q =>
          obtain ⟨w, r1⟩ := q
          rw [hpv] at h
          rw [ihv f1 s (w, r1) (by omega) hpv]
          dsimp only at h ⊢
          cases hsw : skipWs r1 with
          | nil =>
            rw [hsw] at h
            exact absurd h (by simp)
          | cons c t =>
            rw [hsw] at h
            dsimp only at h ⊢
            by_cases h1 : c = ']'
            · rw [if_pos h1] at h ⊢
              exact h
            · rw [if_neg h1] at h ⊢
              by_cases h2 : c = ','
              · rw [if_pos h2] at h ⊢
                exact ihal f1 (acc ++ [w]) t _ (by omega) h
              · rw [if_neg h2] at h
                exact absurd h (by simp)
    · intro f s p hf h
      cases f with
      | zero => exact Except.noConfusion h
      | succ f1 =>
        rw [parseObjectF_succ] at h
        rw [parseObjectF_succ]
        cases hsw : skipWs s with
        | nil =>
          rw [hsw] at h
          exact ihol f1 [] [] _ (by omega) h
        | cons c rest =>
          rw [hsw] at h
          dsimp only at h ⊢
          by_cases h1 : c = '\x7d'
          · rw [if_pos h1] at h ⊢
            exact h
          · rw [if_neg h1] at h ⊢
            exact ihol f1 [] _ _ (by omega) h
    · intro f m s p hf h
      cases f with
      | zero => exact Except.noConfusion h
      | succ f1 =>
        rw [objLoopF_succ] at h
        rw [objLoopF_succ]
        cases hpv : parseValueF f1 s with
        | error e =>
          rw [hpv] at h
          exact absurd h (by simp)
        | ok q =>
          obtain ⟨w, r1⟩ := q
          rw [hpv] at h
          rw [ihv f1 s (w, r1) (by omega) hpv]
          dsimp only at h ⊢
          cases w with
          | str key =>
            cases hsw : skipWs r1 with
            | nil =>
              rw [hsw] at h
              exact absurd h (by simp)
            | cons c r2 =>
              rw [hsw] at h
              dsimp only at h ⊢
              by_cases h1 : c = ':'
              · rw [if_pos h1] at h ⊢
                cases hpv2 : parseValueF f1 r2 with
                | error e =>
                  rw [hpv2] at h
                  exact absurd h (by simp)
                | ok q2 =>
                  obtain ⟨w2, r3⟩ := q2
                  rw [hpv2] at h
                  rw [ihv f1 r2 (w2, r3) (by omega) hpv2]
                  dsimp only at h ⊢
                  cases hsw2 : skipWs r3 with
                  | nil =>
                    rw [hsw2] at h
                    exact absurd h (by simp)
                  | cons d t =>
                    rw [hsw2] at h
                    dsimp only at h ⊢
                    by_cases h2 : d = '\x7d'
                    · rw [if_pos h2] at h ⊢
                      exact h
                    · rw [if_neg h2] at h ⊢
                      by_cases h3 : d = ','
                      · rw [if_pos h3] at h ⊢
                        exact ihol f1 (insertAssoc m key w2) t _ (by omega) h
                      · rw [if_neg h3] at h
                        exact absurd h (by simp)
              · rw [if_neg h1] at h
                exact absurd h (by simp)
          | null => simp at h
          | bool b => simp at h
          | num j => simp at h
          | arr vs => simp at h
          | obj ms => simp at h

/-- Above the canonical fuel bound the parser result does not depend on
the fuel: any two sufficient fuels give the same result, errors included. -/
theorem parse_fuel_irrel : ∀ g,
    (∀ f s, 3 * s.length + 4 ≤ f → 3 * s.length + 4 ≤ g →
      parseValueF f s = parseValueF g s) ∧
    (∀ f s, 3 * s.length + 6 ≤ f → 3 * s.length + 6 ≤ g →
      parseArrayF f s = parseArrayF g s) ∧
    (∀ f acc s, 3 * s.length + 5 ≤ f → 3 * s.length + 5 ≤ g →
      arrayLoopF f acc s = arrayLoopF g acc s) ∧
    (∀ f s, 3 * s.length + 6 ≤ f → 3 * s.length + 6 ≤ g →
      parseObjectF f s = parseObjectF g s) ∧
    (∀ f m s, 3 * s.length + 5 ≤ f → 3 * s.length + 5 ≤ g →
      objLoopF f m s = objLoopF g m s) := by
  intro g
  induction g with
  | zero =>
    refine ⟨?_, ?_, ?_, ?_, ?_⟩
    · intro f s hf hg
      exact absurd hg (by omega)
    · intro f s hf hg
      exact absurd hg (by omega)
    · intro f acc s hf hg
      exact absurd hg (by omega)
    · intro f s hf hg
      exact absurd hg (by omega)
    · intro f m s hf hg
      exact absurd hg (by omega)
  | succ g ih =>
    obtain ⟨ihv, iha, ihal, iho, ihol⟩ := ih
    refine ⟨?_, ?_, ?_, ?_, ?_⟩
    · intro f s hf hg
      obtain ⟨f1, rfl⟩ : ∃ f1, f = f1 + 1 := ⟨f - 1, by omega⟩
      rw [parseValueF_succ, parseValueF_succ]
      cases hsw : skipWs s with
      | nil => rfl
      | cons c rest =>
        have hlenc : (c :: rest).length ≤ s.length := by
          have := skipWs_length_le s
          rw [hsw] at this
          exact this
        simp only [List.length_cons] at hlenc
        dsimp only
        by_cases h1 : c = '\x7b'
        · simp only [if_pos h1]
          exact iho f1 rest (by omega) (by omega)
        · simp only [if_neg h1]
          by_cases h2 : c = '['
          · simp only [if_pos h2]
            exact iha f1 rest (by omega) (by omega)
          · simp only [if_neg h2]
    · intro f s hf hg
      obtain ⟨f1, rfl⟩ : ∃ f1, f = f1 + 1 := ⟨f - 1, by omega⟩
      rw [parseArrayF_succ, parseArrayF_succ]
      cases hsw : skipWs s with
      | nil =>
        exact ihal f1 [] [] (by simp only [List.length_nil]; omega)
          (by simp only [List.length_nil]; omega)
      | cons c rest =>
        have hlenc : (c :: rest).length ≤ s.length := by
          have := skipWs_length_le s
          rw [hsw] at this
          exact this
        simp only [List.length_cons] at hlenc
        dsimp only
        by_cases h1 : c = ']'
        · simp only [if_pos h1]
        · simp only [if_neg h1]
          exact ihal f1 [] (c :: rest) (by simp only [List.length_cons]; omega)
            (by simp only [List.length_cons]; omega)
    · intro f acc s hf hg
      obtain ⟨f1, rfl⟩ : ∃ f1, f = f1 + 1 := ⟨f - 1, by omega⟩
      rw [arrayLoopF_succ, arrayLoopF_succ]
      have hveq : parseValueF f1 s = parseValueF g s :=
        ihv f1 s (by omega) (by omega)
      rw [hveq]
      cases hpv : parseValueF g s with
      | error e => rfl
      | ok q =>
        obtain ⟨w, r1⟩ := q
        dsimp only
        have hr1 : r1.length < s.length := (parse_consume g).1 s w r1 hpv
        cases hsw : skipWs r1 with
        | nil => rfl
        | cons c t =>
          have ht : t.length < r1.length := skipWs_cons_length hsw
          dsimp only
          by_cases h1 : c = ']'
          · simp only [if_pos h1]
          · simp only [if_neg h1]
            by_cases h2 : c = ','
            · simp only [if_pos h2]
              exact ihal f1 (acc ++ [w]) t (by omega) (by omega)
            · simp only [if_neg h2]
    · intro f s hf hg
      obtain ⟨f1, rfl⟩ : ∃ f1, f = f1 + 1 := ⟨f - 1, by omega⟩
      rw [parseObjectF_succ, parseObjectF_succ]
      cases hsw : skipWs s with
      | nil =>
        exact ihol f1 [] [] (by simp only [List.length_nil]; omega)
          (by simp only [List.length_nil]; omega)
      | cons c rest =>
        have hlenc : (c :: rest).length ≤ s.length := by
          have := skipWs_length_le s
          rw [hsw] at this
          exact this
        simp only [List.length_cons] at hlenc
        dsimp only
        by_cases h1 : c = '\x7d'
        · simp only [if_pos h1]
        · simp only [if_neg h1]
          exact ihol f1 [] (c :: rest) (by simp only [List.length_cons]; omega)
            (by simp only [List.length_cons]; omega)
    · intro f m s hf hg
      obtain ⟨f1, rfl⟩ : ∃ f1, f = f1 + 1 := ⟨f - 1, by omega⟩
      rw [objLoopF_succ, objLoopF_succ]
      have hveq : parseValueF f1 s = parseValueF g s :=
        ihv f1 s (by omega) (by omega)
      rw [hveq]
      cases hpv : parseValueF g s with
      | error e => rfl
      | ok q =>
        obtain ⟨w, r1⟩ := q
        dsimp only
        have hr1 : r1.length < s.length := (parse_consume g).1 s w r1 hpv
        cases w with
        | str key =>
          cases hsw : skipWs r1 with
          | nil => rfl
          | cons c r2 =>
            have hr2 : r2.length < r1.length := skipWs_cons_length hsw
            dsimp only
            by_cases h1 : c = ':'
            · simp only [if_pos h1]
              have hveq2 : parseValueF f1 r2 = parseValueF g r2 :=
                ihv f1 r2 (by omega) (by omega)
              rw [hveq2]
              cases hpv2 : parseValueF g r2 with
              | error e => rfl
              | ok q2 =>
                obtain ⟨w2, r3⟩ := q2
                dsimp only
                have hr3 : r3.length < r2.length := (parse_consume g).1 r2 w2 r3 hpv2
                cases hsw2 : skipWs r3 with
                | nil => rfl
                | cons d t =>
                  have htl : t.length < r3.length := skipWs_cons_length hsw2
                  dsimp only
                  by_cases h2 : d = '\x7d'
                  · simp only [if_pos h2]
                  · simp only [if_neg h2]
                    by_cases h3 : d = ','
                    · simp only [if_pos h3]
                      exact ihol f1 (insertAssoc m key w2) t (by omega) (by omega)
                    · simp only [if_neg h3]
            · simp only [if_neg h1]
        | null => rfl
        | bool b => rfl
        | num j => rfl
        | arr vs => rfl
        | obj ms => rfl

theorem parseValueF_nil (f : Nat) : parseValueF f [] = .error .UnexpectedEndOfInput := by
  cases f with
  | zero => rfl
  | succ f1 => rfl

theorem arrayLoopF_nil (f : Nat) (acc : List Value) :
    arrayLoopF f acc [] = .error .UnexpectedEndOfInput := by
  cases f with
  | zero => rfl
  | succ f1 =>
    rw [arrayLoopF_succ, parseValueF_nil]

theorem objLoopF_nil (f : Nat) (m : List (List Char × Value)) :
    objLoopF f m [] = .error .UnexpectedEndOfInput := by
  cases f with
  | zero => rfl
  | succ f1 =>
    rw [objLoopF_succ, parseValueF_nil]

/-- Appending an all-whitespace suffix to the input preserves every
successful parse, with the suffix carried into the remainder, at the same
fuel, for each production. -/
theorem parse_ext : ∀ (f : Nat) (w : List Char), allWs w →
    (∀ s v r, parseValueF f s = .ok (v, r) →
      parseValueF f (s ++ w) = .ok (v, r ++ w)) ∧
    (∀ s v r, parseArrayF f s = .ok (v, r) →
      parseArrayF f (s ++ w) = .ok (v, r ++ w)) ∧
    (∀ acc s v r, arrayLoopF f acc s = .ok (v, r) →
      arrayLoopF f acc (s ++ w) = .ok (v, r ++ w)) ∧
    (∀ s v r, parseObjectF f s = .ok (v, r) →
      parseObjectF f (s ++ w) = .ok (v, r ++ w)) ∧
    (∀ m s v r, objLoopF f m s = .ok (v, r) →
      objLoopF f m (s ++ w) = .ok (v, r ++ w)) := by
  intro f w hw
  have hwa : ∀ c cs, w = c :: cs → Char.isAlpha c = false := by
    intro c cs hcc
    exact alpha_false_of_ws (hw c (by rw [hcc]; exact List.mem_cons_self _ _))
  have hwn : ∀ c cs, w = c :: cs → numChar c = false := by
    intro c cs hcc
    exact numChar_false_of_ws (hw c (by rw [hcc]; exact List.mem_cons_self _ _))
  induction f with
  | zero =>
    refine ⟨?_, ?_, ?_, ?_, ?_⟩
    · intro s v r h
      exact Except.noConfusion h
    · intro s v r h
      exact Except.noConfusion h
    · intro acc s v r h
      exact Except.noConfusion h
    · intro s v r h
      exact Except.noConfusion h
    · intro m s v r h
      exact Except.noConfusion h
  | succ f ih =>
    obtain ⟨ihv, iha, ihal, iho, ihol⟩ := ih
    refine ⟨?_, ?_, ?_, ?_, ?_⟩
    · intro s v r h
      rw [parseValueF_succ] at h
      rw [parseValueF_succ]
      cases hsw : skipWs s with
      | nil =>
        rw [hsw] at h
        exact absurd h (by simp)
      | cons c rest =>
        rw [hsw] at h
        rw [skipWs_append_of_cons s w c rest hsw]
        dsimp only at h ⊢
        by_cases h1 : c = '\x7b'
        · rw [if_pos h1] at h ⊢
          exact iho _ _ _ h
        · rw [if_neg h1] at h ⊢
          by_cases h2 : c = '['
          · rw [if_pos h2] at h ⊢
            exact iha _ _ _ h
          · rw [if_neg h2] at h ⊢
            by_cases h3 : c = '"'
            · rw [if_pos h3] at h ⊢
              cases hps : parseStringF (rest.length + 1) rest with
              | error e =>
                rw [hps] at h
                exact absurd h (by simp [Except.map])
              | ok p =>
                rw [hps] at h
                simp only [Except.map] at h
                injection h with h4
                injection h4 with h5 h6
                have hext := parseStringF_ext (rest.length + 1) rest p.1 p.2 w
                  (by rw [hps])
                have hmono := parseStringF_mono (rest.length + 1)
                  ((rest ++ w).length + 1) (rest ++ w) (p.1, p.2 ++ w)
                  (by simp only [List.length_append]; omega) hext
                rw [hmono]
                simp only [Except.map]
                rw [h5, h6]
            · rw [if_neg h3] at h ⊢
              by_cases h4 : c = 't' ∨ c = 'f' ∨ c = 'n'
              · rw [if_pos h4] at h ⊢
                have := parseLiteral_ext (c :: rest) w v r hwa h
                simp only [List.cons_append] at this
                exact this
              · rw [if_neg h4] at h ⊢
                by_cases h5 : isDigitChar c ∨ c = '-'
                · rw [if_pos h5] at h ⊢
                  have := parseNumber_ext (c :: rest) w v r hwn h
                  simp only [List.cons_append] at this
                  exact this
                · rw [if_neg h5] at h
                  exact absurd h (by simp)
    · intro s v r h
      rw [parseArrayF_succ] at h
      rw [parseArrayF_succ]
      cases hsw : skipWs s with
      | nil =>
        rw [hsw] at h
        rw [arrayLoopF_nil] at h
        exact Except.noConfusion h
      | cons c rest =>
        rw [hsw] at h
        rw [skipWs_append_of_cons s w c rest hsw]
        dsimp only at h ⊢
        by_cases h1 : c = ']'
        · rw [if_pos h1] at h ⊢
          injection h with h2
          injection h2 with h3 h4
          subst h3
          subst h4
          rfl
        · rw [if_neg h1] at h ⊢
          have := ihal [] (c :: rest) _ _ h
          simp only [List.cons_append] at this
          exact this
    · intro acc s v r h
      rw [arrayLoopF_succ] at h
      rw [arrayLoopF_succ]
      cases hpv : parseValueF f s with
      | error e =>
        rw [hpv] at h
        exact absurd h (by simp)
      | ok q =>
        obtain ⟨w0, r1⟩ := q
        rw [hpv] at h
        rw [ihv _ _ _ hpv]
        dsimp only at h ⊢
        cases hsw : skipWs r1 with
        | nil =>
          rw [hsw] at h
          exact absurd h (by simp)
        | cons c t =>
          rw [hsw] at h
          rw [skipWs_append_of_cons r1 w c t hsw]
          dsimp only at h ⊢
          by_cases h1 : c = ']'
          · rw [if_pos h1] at h ⊢
            injection h with h2
            injection h2 with h3 h4
            subst h3
            subst h4
            rfl
          · rw [if_neg h1] at h ⊢
            by_cases h2 : c = ','
            · rw [if_pos h2] at h ⊢
              exact ihal (acc ++ [w0]) t _ _ h
            · rw [if_neg h2] at h
              exact absurd h (by simp)
    · intro s v r h
      rw [parseObjectF_succ] at h
      rw [parseObjectF_succ]
      cases hsw : skipWs s with
      | nil =>
        rw [hsw] at h
        rw [objLoopF_nil] at h
        exact Except.noConfusion h
      | cons c rest =>
        rw [hsw] at h
        rw [skipWs_append_of_cons s w c rest hsw]
        dsimp only at h ⊢
        by_cases h1 : c = '\x7d'
        · rw [if_pos h1] at h ⊢
          injection h with h2
          injection h2 with h3 h4
          subst h3
          subst h4
          rfl
        · rw [if_neg h1] at h ⊢
          have := ihol [] (c :: rest) _ _ h
          simp only [List.cons_append] at this
          exact this
    · intro m s v r h
      rw [objLoopF_succ] at h
      rw [objLoopF_succ]
      cases hpv : parseValueF f s with
      | error e =>
        rw [hpv] at h
        exact absurd h (by simp)
      | ok q =>
        obtain ⟨w0, r1⟩ := q
        rw [hpv] at h
        rw [ihv _ _ _ hpv]
        dsimp only at h ⊢
        cases w0 with
        | str key =>
          cases hsw : skipWs r1 with
          | nil =>
            rw [hsw] at h
            exact absurd h (by simp)
          | cons c r2 =>
            rw [hsw] at h
            rw [skipWs_append_of_cons r1 w c r2 hsw]
            dsimp only at h ⊢
            by_cases h1 : c = ':'
            · rw [if_pos h1] at h ⊢
              cases hpv2 : parseValueF f r2 with
              | error e =>
                rw [hpv2] at h
                exact absurd h (by simp)
              | ok q2 =>
                obtain ⟨w2, r3⟩ := q2
                rw [hpv2] at h
                rw [ihv _ _ _ hpv2]
                dsimp only at h ⊢
                cases hsw2 : skipWs r3 with
                | nil =>
                  rw [hsw2] at h
                  exact absurd h (by simp)
                | cons d t =>
                  rw [hsw2] at h
                  rw [skipWs_append_of_cons r3 w d t hsw2]
                  dsimp only at h ⊢
                  by_cases h2 : d = '\x7d'
                  · rw [if_pos h2] at h ⊢
                    injection h with h3
                    injection h3 with h4 h5
                    subst h4
                    subst h5
                    rfl
                  · rw [if_neg h2] at h ⊢
                    by_cases h3 : d = ','
                    · rw [if_pos h3] at h ⊢
                      exact ihol (insertAssoc m key w2) t _ _ h
                    · rw [if_neg h3] at h
                      exact absurd h (by simp)
            · rw [if_neg h1] at h
              exact absurd h (by simp)
        | null => simp at h
        | bool b => simp at h
        | num j => simp at h
        | arr vs => simp at h
        | obj ms => simp at h

/-- C7 counterexample: surrounding whitespace can change the result on
erroneous inputs -- the three-character input quote, a, backslash fails
with UnterminatedString, but the same input with a trailing space fails
with InvalidEscapeSequence of the space, because the space becomes the
character following the backslash inside the string production before the
top level ever sees it. -/
theorem c7_whitespace_counterexample :
    fromStr (['"', 'a', '\\'] ++ [' ']) ≠ fromStr ['"', 'a', '\\'] ∧
    fromStr ['"', 'a', '\\'] = .error .UnterminatedString ∧
    fromStr (['"', 'a', '\\'] ++ [' ']) = .error (.InvalidEscapeSequence ' ') := by
  refine ⟨?_, rfl, rfl⟩
  intro hcontr
  rw [show fromStr (['"', 'a', '\\'] ++ [' ']) =
      .error (.InvalidEscapeSequence ' ') from rfl,
    show fromStr ['"', 'a', '\\'] = .error .UnterminatedString from rfl] at hcontr
  injection hcontr with he
  exact ParseError.noConfusion he

/-- C7 amended: leading whitespace never changes the result of parse;
trailing whitespace preserves every successful parse; whenever the single
parsed value leaves a remainder with a non-whitespace character the result
is TrailingCharacters; and the concrete example holds: parsing true with
surrounding spaces equals parsing true.  (Trailing whitespace appended to
a failing input can however change which error is reported, see the
counterexample.) -/
theorem c7_whitespace_amended :
    (∀ (w s : List Char), allWs w → fromStr (w ++ s) = fromStr s) ∧
    (∀ (s w : List Char) (v : Value), allWs w → fromStr s = .ok v →
      fromStr (s ++ w) = .ok v) ∧
    (∀ (s : List Char) (v : Value) (rest : List Char),
      parseValueF (3 * s.length + 4) s = .ok (v, rest) → skipWs rest ≠ [] →
      fromStr s = .error .TrailingCharacters) ∧
    fromStr (("  true  ".toList)) = fromStr (("true".toList)) := by
  refine ⟨?_, ?_, ?_, rfl⟩
  · intro w s hwall
    have hval : ∀ f, parseValueF f (w ++ s) = parseValueF f s := by
      intro f
      cases f with
      | zero => rfl
      | succ f1 =>
        rw [parseValueF_succ, parseValueF_succ, skipWs_append_allWs w s hwall]
    show (match parseValueF (3 * (w ++ s).length + 4) (w ++ s) with
      | Except.error e => Except.error e
      | Except.ok (v, rest) => if skipWs rest = [] then Except.ok v
          else Except.error ParseError.TrailingCharacters) =
      (match parseValueF (3 * s.length + 4) s with
      | Except.error e => Except.error e
      | Except.ok (v, rest) => if skipWs rest = [] then Except.ok v
          else Except.error ParseError.TrailingCharacters)
    rw [hval, (parse_fuel_irrel (3 * s.length + 4)).1 (3 * (w ++ s).length + 4) s
      (by simp only [List.length_append]; omega) le_rfl]
  · intro s w v hwall h
    unfold fromStr at h
    cases hpv : parseValueF (3 * s.length + 4) s with
    | error e =>
      rw [hpv] at h
      exact absurd h (by simp)
    | ok p =>
      obtain ⟨v0, rest⟩ := p
      rw [hpv] at h
      dsimp only at h
      by_cases hsw : skipWs rest = []
      · rw [if_pos hsw] at h
        injection h with h1
        subst h1
        have hext := (parse_ext (3 * s.length + 4) w hwall).1 s _ rest hpv
        have hmono := (parse_mono_ok (3 * (s ++ w).length + 4)).1 (3 * s.length + 4)
          (s ++ w) (_, rest ++ w) (by simp only [List.length_append]; omega) hext
        unfold fromStr
        rw [hmono]
        dsimp only
        have hall : skipWs (rest ++ w) = [] := by
          rw [skipWs_eq_nil_iff]
          intro c hc
          rw [List.mem_append] at hc
          cases hc with
          | inl hc => exact (skipWs_eq_nil_iff rest).mp hsw c hc
          | inr hc => exact hwall c hc
        rw [if_pos hall]
      · rw [if_neg hsw] at h
        exact absurd h (by simp)
  · intro s v rest hpv hne
    unfold fromStr
    rw [hpv]
    dsimp only
    rw [if_neg hne]

theorem c7_whitespace_amended_witness :
    allWs [' '] ∧
    fromStr ([' '] ++ ("true".toList)) = fromStr (("true".toList)) ∧
    fromStr (("true".toList)) = .ok (.bool true) ∧
    fromStr (("true".toList) ++ [' ']) = .ok (.bool true) :=
  ⟨by intro c hc; rw [List.mem_singleton] at hc; subst hc; decide,
   c7_whitespace_amended.1 [' '] (("true".toList))
     (by intro c hc; rw [List.mem_singleton] at hc; subst hc; decide), rfl,
   c7_whitespace_amended.2.1 (("true".toList)) [' '] (.bool true)
     (by intro c hc; rw [List.mem_singleton] at hc; subst hc; decide) rfl⟩

end Stdt
